import Mathlib

/-!
Verification of the minishogilib MCTS / replay-reservoir core (src/mcts.rs,
src/reservoir.rs) against its natural-language specification.

Modelling conventions:
* `f32` values are modelled as exact rationals (`ℚ`).  The transcendental
  library functions (`sqrt`, `log2`, `exp`, `powf`) that the source calls on
  `f32` are uninterpreted: they are passed around in a `FloatOps` record, so
  every definition stays computable and can be evaluated once a concrete
  `FloatOps` instance is supplied.
* `std::f32::MAX` (the sentinel the source returns for the specification's
  "+infinity" PUCT) is the exact rational value of the largest finite `f32`.
* `u32`/`usize` counters are modelled as `ℕ`.  The only subtraction the
  claims touch is `virtual_loss -= 1`, which the corresponding theorems guard
  with `1 ≤ virtual_loss` (a `u32` underflow would abort in the source).
* The node arena `game_tree : Vec<Node>` is modelled as a total function
  `ℕ → Node` together with the arena length `size`; the source's unbounded
  allocation loop is modelled with an explicit fuel parameter.
-/

/-- Uninterpreted `f32` library functions used by the source
(`f32::sqrt`, `f32::log2`, `f32::exp`, `f32::powf`). -/
structure FloatOps where
  sqrt : ℚ → ℚ
  log2 : ℚ → ℚ
  exp : ℚ → ℚ
  pow : ℚ → ℚ → ℚ

/-- A concrete, trivial `FloatOps` instance, only used to evaluate the
development on explicit inputs (witnesses and counterexamples pick inputs on
which the relevant transcendental calls are irrelevant or exact). -/
def idOps : FloatOps :=
  { sqrt := fun x => x, log2 := fun x => x, exp := fun x => x,
    pow := fun b _ => b }

/-- Constant `std::f32::MAX = (2^24 - 1) * 2^104`, the sentinel the source uses for
the specification's "+infinity" PUCT score. -/
def F32MAX : ℚ := (2 ^ 24 - 1) * 2 ^ 104

/-- The `Move` collaborator (src/move.rs is outside the verified sources).
Only the observations `mcts.rs`/`reservoir.rs` make are modelled:
`to_policy_index()`, `piece.get_piece_type() == PieceType::PAWN`, `is_hand`. -/
structure Mv where
  policy_index : ℕ := 0
  is_pawn : Bool := false
  is_hand : Bool := false
deriving DecidableEq

instance : Inhabited Mv := ⟨{}⟩

/-- Constant `NULL_MOVE` of the `types` collaborator. -/
def NULL_MOVE : Mv := {}

/-- Side to move (`types::Color`). -/
inductive Color where
  | WHITE
  | BLACK
deriving DecidableEq

/-- A search-tree node, translated field-for-field from `Node` in
src/mcts.rs lines 10-22 (`n`, `v`, `p`, `w`, `m`, `parent`, `children`,
`is_terminal`, `virtual_loss`, `is_used`). -/
structure Node where
  n : ℕ
  v : ℚ
  p : ℚ
  w : ℚ
  m : Mv
  parent : ℕ
  children : List ℕ
  is_terminal : Bool
  virtual_loss : ℕ
  is_used : Bool

/-- Source `Node::new` (src/mcts.rs lines 25-38). -/
def Node.new (parent : ℕ) (m : Mv) (policy : ℚ) (is_used : Bool) : Node :=
  { n := 0, v := 0, p := policy, w := 0, m := m, parent := parent,
    children := [], is_terminal := false, virtual_loss := 0,
    is_used := is_used }

instance : Inhabited Node := ⟨Node.new 0 NULL_MOVE 0 false⟩

/-- Source `Node::get_puct` (src/mcts.rs lines 54-84), translated branch for
branch.  The caller passes `parent_n` as an `f32`; the forced-playouts
threshold, the exploration constant `c` and the exploration term `u` use the
uninterpreted `sqrt`/`log2` of `ops`. -/
def Node.get_puct (ops : FloatOps) (nd : Node) (parent_n : ℚ)
    (forced_playouts : Bool) : ℚ :=
  if nd.is_terminal ∧ nd.v = 0 then F32MAX
  else if nd.is_terminal ∧ nd.v = 1 then -1
  else
    if forced_playouts ∧ (nd.n : ℚ) < ops.sqrt (2 * nd.p * parent_n) then
      F32MAX
    else
      let c : ℚ := ops.log2 ((1 + (nd.n : ℚ) + 19652) / 19652) + 5 / 4
      let q : ℚ :=
        if nd.n + nd.virtual_loss = 0 then 0
        else 1 - (nd.w + (nd.virtual_loss : ℚ)) /
          ((nd.n + nd.virtual_loss : ℕ) : ℚ)
      let u : ℚ := nd.p * ops.sqrt parent_n /
        (1 + ((nd.n + nd.virtual_loss : ℕ) : ℚ))
      q + c * u

/-- Source `Node::expanded` (src/mcts.rs lines 86-88). -/
def Node.expanded (nd : Node) : Bool := nd.children.length > 0

/-- The MCTS arena state (src/mcts.rs lines 91-99): the slab size, the node
slab itself, the allocation cursor and the live-node count.  `prev_root` is
irrelevant to the claims under verification and omitted. -/
structure MCTSState where
  size : ℕ
  tree : ℕ → Node
  node_index : ℕ
  node_used_count : ℕ

/-- Point update of the arena (`self.game_tree[i] = nd` /
field assignments through index `i`). -/
def upd (t : ℕ → Node) (i : ℕ) (nd : Node) : ℕ → Node :=
  fun j => if j = i then nd else t j

/-- Source `MCTS::select_puct_max_child` (src/mcts.rs lines 677-694): fold over the
children, keeping the first child whose PUCT strictly exceeds the running
maximum (the first child is always adopted because `puct_max_child == 0`
initially).  The parent total passed to `get_puct` is
`parent.n + parent.virtual_loss`. -/
def selectPuctMaxChildAux (ops : FloatOps) (t : ℕ → Node) (parentTotal : ℚ)
    (forced : Bool) : List ℕ → ℚ → ℕ → ℕ
  | [], _, best => best
  | child :: rest, puct_max, best =>
    let puct := (t child).get_puct ops parentTotal forced
    if best = 0 ∨ puct > puct_max then
      selectPuctMaxChildAux ops t parentTotal forced rest puct child
    else
      selectPuctMaxChildAux ops t parentTotal forced rest puct_max best

/-- Source `MCTS::select_puct_max_child` entry point (src/mcts.rs lines 677-694). -/
def select_puct_max_child (ops : FloatOps) (t : ℕ → Node) (node : ℕ)
    (forced : Bool) : ℕ :=
  selectPuctMaxChildAux ops t
    (((t node).n + (t node).virtual_loss : ℕ) : ℚ) forced
    (t node).children (-1) 0

/-- The PUCT score exactly as §4.2 of the specification words it, with the
terminal and forced-playouts overrides; the spec's "+∞" is realised by the
source as `f32::MAX`.  This definition follows the SPEC's text and is
compared with the source-derived `Node.get_puct`. -/
def specPuct (ops : FloatOps) (nd : Node) (Np : ℚ) (forced : Bool) : ℚ :=
  if nd.is_terminal ∧ nd.v = 0 then F32MAX
  else if nd.is_terminal ∧ nd.v = 1 then -1
  else if forced ∧ (nd.n : ℚ) < ops.sqrt (2 * nd.p * Np) then F32MAX
  else
    let Q : ℚ :=
      if nd.n + nd.virtual_loss = 0 then 0
      else 1 - (nd.w + (nd.virtual_loss : ℚ)) /
        ((nd.n : ℚ) + (nd.virtual_loss : ℚ))
    let c : ℚ := ops.log2 ((1 + (nd.n : ℚ) + 19652) / 19652) + 5 / 4
    let U : ℚ := nd.p * ops.sqrt Np / (1 + (nd.n : ℚ) + (nd.virtual_loss : ℚ))
    Q + c * U

/-- Selection as §4.2/§4.4 of the specification word it: the child of
maximum spec PUCT, first-found winning ties, evaluated at
`Np = parent.n + parent.virtual_loss`. -/
def specSelectAux (ops : FloatOps) (t : ℕ → Node) (Np : ℚ) (forced : Bool) :
    List ℕ → ℚ → ℕ → ℕ
  | [], _, best => best
  | child :: rest, cur, best =>
    let puct := specPuct ops (t child) Np forced
    if best = 0 ∨ puct > cur then
      specSelectAux ops t Np forced rest puct child
    else
      specSelectAux ops t Np forced rest cur best

/-- Spec-side selection entry point (§4.4, with §4.2's `Np`). -/
def specSelectChild (ops : FloatOps) (t : ℕ → Node) (node : ℕ)
    (forced : Bool) : ℕ :=
  specSelectAux ops t (((t node).n : ℚ) + ((t node).virtual_loss : ℚ)) forced
    (t node).children (-1) 0

theorem getPuct_eq_specPuct (ops : FloatOps) (nd : Node) (pn : ℚ)
    (forced : Bool) : nd.get_puct ops pn forced = specPuct ops nd pn forced := by
  unfold Node.get_puct specPuct
  push_cast [add_assoc]
  rfl

theorem selectAux_eq (ops : FloatOps) (t : ℕ → Node) (Np : ℚ) (forced : Bool) :
    ∀ (l : List ℕ) (cur : ℚ) (best : ℕ),
      selectPuctMaxChildAux ops t Np forced l cur best =
        specSelectAux ops t Np forced l cur best := by
  intro l
  induction l with
  | nil => intro cur best; rfl
  | cons c rest ih =>
    intro cur best
    simp only [selectPuctMaxChildAux, specSelectAux, getPuct_eq_specPuct]
    by_cases h : best = 0 ∨ specPuct ops (t c) Np forced > cur
    · rw [if_pos h, if_pos h, ih]
    · rw [if_neg h, if_neg h, ih]

/-- C1: `Node::get_puct` returns exactly the specification's PUCT score
(terminal override to +∞ for `v = 0` and to −1 for `v = 1`, forced-playouts
override to +∞ when `n < sqrt(2·p·parent_n)`, and otherwise
`Q + c·U` with `Q = 0` when `n + vl = 0`, `Q = 1 − (w + vl)/(n + vl)`
otherwise, `c = log2((1 + n + 19652)/19652) + 1.25` and
`U = p·sqrt(Np)/(1 + n + vl)`); moreover, during selection the parent total
`Np` fed to the score is `parent.n + parent.virtual_loss`. -/
theorem c1_get_puct_matches_spec (ops : FloatOps) (t : ℕ → Node) (node : ℕ)
    (forced : Bool) :
    (∀ (nd : Node) (pn : ℚ),
        nd.get_puct ops pn forced = specPuct ops nd pn forced) ∧
      select_puct_max_child ops t node forced =
        specSelectChild ops t node forced := by
  constructor
  · intro nd pn; exact getPuct_eq_specPuct ops nd pn forced
  · unfold select_puct_max_child specSelectChild
    rw [selectAux_eq]
    norm_num

/-! ## Backpropagation (C2) -/

/-- The parent chain from `node` down to (and excluding) the sentinel 0,
computed with explicit fuel: `some path` means the `while node != 0` walk of
`MCTS::backpropagate` reaches the sentinel within `fuel` steps, visiting the
nodes of `path` in order (head = the leaf). -/
def chain (t : ℕ → Node) : ℕ → ℕ → Option (List ℕ)
  | node, 0 => if node = 0 then some [] else none
  | node, fuel + 1 =>
    if node = 0 then some []
    else (chain t ((t node).parent) fuel).map (node :: ·)

theorem chain_zero_eq (t : ℕ → Node) (node : ℕ) :
    chain t node 0 = if node = 0 then some [] else none := rfl

theorem chain_succ_eq (t : ℕ → Node) (node f : ℕ) :
    chain t node (f + 1) =
      if node = 0 then some []
      else (chain t ((t node).parent) f).map (node :: ·) := rfl

/-- Addend `if !flip { value } else { 1.0 - value }` of src/mcts.rs line 448. -/
def flipVal (flip : Bool) (value : ℚ) : ℚ := if flip then 1 - value else value

/-- The node update performed at each step of the backpropagation loop
(src/mcts.rs lines 448-450): add the possibly flipped value to `w`,
increment `n`, decrement `virtual_loss` (`u32` subtraction, guarded by the
theorems with `1 ≤ virtual_loss`). -/
def backpropNodeUpd (nd : Node) (flip : Bool) (value : ℚ) : Node :=
  { nd with w := nd.w + flipVal flip value, n := nd.n + 1,
            virtual_loss := nd.virtual_loss - 1 }

/-- The `while node != 0` loop of `MCTS::backpropagate`
(src/mcts.rs lines 447-453), with explicit fuel. -/
def backpropAux (value : ℚ) : (ℕ → Node) → ℕ → Bool → ℕ → (ℕ → Node)
  | t, _, _, 0 => t
  | t, node, flip, fuel + 1 =>
    if node = 0 then t
    else
      backpropAux value (upd t node (backpropNodeUpd (t node) flip value))
        ((t node).parent) (!flip) fuel

/-- Source `MCTS::backpropagate` (src/mcts.rs lines 442-454): `value` is the leaf's
`v`, the walk starts unflipped at the leaf. -/
def backpropagate (t : ℕ → Node) (leaf_node : ℕ) (fuel : ℕ) : ℕ → Node :=
  backpropAux ((t leaf_node).v) t leaf_node false fuel


theorem chain_zero_notMem (t : ℕ → Node) :
    ∀ (fuel node : ℕ) (path : List ℕ),
      chain t node fuel = some path → 0 ∉ path := by
  intro fuel
  induction fuel with
  | zero =>
    intro node path h
    by_cases hn : node = 0
    · simp only [chain, if_pos hn, Option.some.injEq] at h
      subst h; simp
    · simp only [chain, if_neg hn] at h
      exact absurd h (by simp)
  | succ f ih =>
    intro node path h
    by_cases hn : node = 0
    · simp only [chain, if_pos hn, Option.some.injEq] at h
      subst h; simp
    · simp only [chain, if_neg hn] at h
      obtain ⟨rest, hrest, hp⟩ := Option.map_eq_some'.mp h
      subst hp
      intro hmem
      rcases List.mem_cons.mp hmem with h0 | h0
      · exact hn h0.symm
      · exact ih _ _ hrest h0

theorem chain_fuel_succ (t : ℕ → Node) :
    ∀ (fuel node : ℕ) (path : List ℕ),
      chain t node fuel = some path → chain t node (fuel + 1) = some path := by
  intro fuel
  induction fuel with
  | zero =>
    intro node path h
    by_cases hn : node = 0
    · simp only [chain, if_pos hn, Option.some.injEq] at h
      subst h
      simp [chain, hn]
    · simp only [chain, if_neg hn] at h
      exact absurd h (by simp)
  | succ f ih =>
    intro node path h
    by_cases hn : node = 0
    · simp only [chain, if_pos hn, Option.some.injEq] at h
      subst h
      simp [chain, hn]
    · simp only [chain_succ_eq, if_neg hn] at h
      obtain ⟨rest, hrest, hp⟩ := Option.map_eq_some'.mp h
      subst hp
      rw [chain_succ_eq, if_neg hn, ih _ _ hrest]
      rfl

theorem chain_fuel_le (t : ℕ → Node) (f f' node : ℕ) (path : List ℕ)
    (hle : f ≤ f') (h : chain t node f = some path) :
    chain t node f' = some path := by
  induction hle with
  | refl => exact h
  | step _ ih => exact chain_fuel_succ t _ node path ih

theorem chain_det (t : ℕ → Node) (f f' node : ℕ) (p q : List ℕ)
    (hp : chain t node f = some p) (hq : chain t node f' = some q) : p = q := by
  rcases Nat.le_total f f' with h | h
  · have h2 := chain_fuel_le t f f' node p h hp
    rw [h2] at hq
    exact Option.some_injective _ hq
  · have h2 := chain_fuel_le t f' f node q h hq
    rw [h2] at hp
    exact (Option.some_injective _ hp).symm

theorem chain_drop (t : ℕ → Node) :
    ∀ (fuel node : ℕ) (path : List ℕ), chain t node fuel = some path →
      ∀ (i y : ℕ) (l' : List ℕ), path.drop i = y :: l' →
        ∃ f', f' ≤ fuel ∧ chain t y f' = some (y :: l') := by
  intro fuel
  induction fuel with
  | zero =>
    intro node path h i y l' hdrop
    by_cases hn : node = 0
    · simp only [chain, if_pos hn, Option.some.injEq] at h
      subst h
      simp at hdrop
    · simp only [chain, if_neg hn] at h
      exact absurd h (by simp)
  | succ f ih =>
    intro node path h i y l' hdrop
    by_cases hn : node = 0
    · simp only [chain, if_pos hn, Option.some.injEq] at h
      subst h
      simp at hdrop
    · simp only [chain, if_neg hn] at h
      obtain ⟨rest, hrest, hp⟩ := Option.map_eq_some'.mp h
      subst hp
      match i with
      | 0 =>
        simp at hdrop
        obtain ⟨hy, hl⟩ := hdrop
        subst hy; subst hl
        refine ⟨f + 1, le_refl _, ?_⟩
        rw [chain_succ_eq, if_neg hn, hrest]
        rfl
      | i + 1 =>
        simp only [List.drop_succ_cons] at hdrop
        obtain ⟨f', hf', hc⟩ := ih _ _ hrest i y l' hdrop
        exact ⟨f', Nat.le_succ_of_le hf', hc⟩

theorem chain_nodup (t : ℕ → Node) :
    ∀ (fuel node : ℕ) (path : List ℕ),
      chain t node fuel = some path → path.Nodup := by
  intro fuel
  induction fuel with
  | zero =>
    intro node path h
    by_cases hn : node = 0
    · simp only [chain, if_pos hn, Option.some.injEq] at h
      subst h; simp
    · simp only [chain, if_neg hn] at h
      exact absurd h (by simp)
  | succ f ih =>
    intro node path h
    by_cases hn : node = 0
    · simp only [chain, if_pos hn, Option.some.injEq] at h
      subst h; simp
    · simp only [chain, if_neg hn] at h
      obtain ⟨rest, hrest, hp⟩ := Option.map_eq_some'.mp h
      subst hp
      refine List.nodup_cons.mpr ⟨?_, ih _ _ hrest⟩
      intro hmem
      obtain ⟨s, u, hsu⟩ := List.append_of_mem hmem
      have hdrop : rest.drop s.length = node :: u := by
        rw [hsu]; exact List.drop_left s (node :: u)
      obtain ⟨f', _, hc⟩ := chain_drop t f _ rest hrest s.length node u hdrop
      have hcons : chain t node (f + 1) = some (node :: rest) := by
        rw [chain_succ_eq, if_neg hn, hrest]
        rfl
      have heq := chain_det t f' (f + 1) node (node :: u) (node :: rest) hc hcons
      have hrt : u = rest := by simpa using heq
      subst hrt
      have hlen := congrArg List.length hsu
      simp at hlen
      omega

theorem chain_congr (t t' : ℕ → Node) :
    ∀ (fuel node : ℕ) (path : List ℕ), chain t node fuel = some path →
      (∀ x ∈ path, t' x = t x) → chain t' node fuel = some path := by
  intro fuel
  induction fuel with
  | zero =>
    intro node path h _
    by_cases hn : node = 0
    · simpa only [chain, if_pos hn] using h
    · simp only [chain, if_neg hn] at h
      exact absurd h (by simp)
  | succ f ih =>
    intro node path h hagree
    by_cases hn : node = 0
    · simpa only [chain, if_pos hn] using h
    · simp only [chain_succ_eq, if_neg hn] at h
      obtain ⟨rest, hrest, hp⟩ := Option.map_eq_some'.mp h
      subst hp
      have hnode : t' node = t node := hagree node (by simp)
      rw [chain_succ_eq, if_neg hn, hnode,
        ih _ _ hrest (fun x hx => hagree x (by simp [hx]))]
      rfl

theorem backpropAux_succ_eq (value : ℚ) (t : ℕ → Node) (node : ℕ)
    (flip : Bool) (f : ℕ) :
    backpropAux value t node flip (f + 1) =
      if node = 0 then t
      else
        backpropAux value (upd t node (backpropNodeUpd (t node) flip value))
          ((t node).parent) (!flip) f := rfl

theorem xorParity (flip : Bool) (i : ℕ) :
    Bool.xor (!flip) (decide (i % 2 = 1)) =
      Bool.xor flip (decide ((i + 1) % 2 = 1)) := by
  rcases Nat.mod_two_eq_zero_or_one i with h | h
  · have h1 : (i + 1) % 2 = 1 := by omega
    simp [h, h1]
  · have h1 : (i + 1) % 2 = 0 := by omega
    simp [h, h1]

theorem backpropAux_visit (value : ℚ) :
    ∀ (path : List ℕ) (t : ℕ → Node) (node : ℕ) (flip : Bool) (fuel : ℕ),
      chain t node fuel = some path →
      (∀ j, j ∉ path → backpropAux value t node flip fuel j = t j) ∧
      (∀ (i y : ℕ) (l' : List ℕ), path.drop i = y :: l' →
        backpropAux value t node flip fuel y =
          backpropNodeUpd (t y) (Bool.xor flip (decide (i % 2 = 1))) value) := by
  intro path
  induction path with
  | nil =>
    intro t node flip fuel hchain
    have hnode : node = 0 := by
      by_contra hn
      match fuel with
      | 0 => rw [chain_zero_eq, if_neg hn] at hchain; exact absurd hchain (by simp)
      | f + 1 =>
        rw [chain_succ_eq, if_neg hn] at hchain
        obtain ⟨rest, _, hp⟩ := Option.map_eq_some'.mp hchain
        exact absurd hp (by simp)
    subst hnode
    constructor
    · intro j _
      match fuel with
      | 0 => rfl
      | f + 1 => rw [backpropAux_succ_eq, if_pos rfl]
    · intro i y l' hdrop
      simp at hdrop
  | cons x rest ih =>
    intro t node flip fuel hchain
    have hn : node ≠ 0 := by
      intro h0
      match fuel with
      | 0 =>
        rw [chain_zero_eq, if_pos h0] at hchain
        exact absurd (Option.some_injective _ hchain) (by simp)
      | f + 1 =>
        rw [chain_succ_eq, if_pos h0] at hchain
        exact absurd (Option.some_injective _ hchain) (by simp)
    match fuel with
    | 0 =>
      rw [chain_zero_eq, if_neg hn] at hchain
      exact absurd hchain (by simp)
    | f + 1 =>
      have hcons := hchain
      rw [chain_succ_eq, if_neg hn] at hchain
      obtain ⟨rest', hrest, hp⟩ := Option.map_eq_some'.mp hchain
      injection hp with hx hrest'
      subst hx
      rw [hrest'] at hrest
      have hnotmem : node ∉ rest :=
        (List.nodup_cons.mp (chain_nodup t (f + 1) node (node :: rest) hcons)).1
      have hagree : ∀ y ∈ rest,
          upd t node (backpropNodeUpd (t node) flip value) y = t y := by
        intro y hy
        have hyn : y ≠ node := fun h => hnotmem (h ▸ hy)
        simp [upd, hyn]
      have hchain1 :
          chain (upd t node (backpropNodeUpd (t node) flip value))
            ((t node).parent) f = some rest :=
        chain_congr t _ f _ rest hrest hagree
      have hstep : backpropAux value t node flip (f + 1) =
          backpropAux value (upd t node (backpropNodeUpd (t node) flip value))
            ((t node).parent) (!flip) f := by
        rw [backpropAux_succ_eq, if_neg hn]
      obtain ⟨ih1, ih2⟩ := ih _ ((t node).parent) (!flip) f hchain1
      constructor
      · intro j hj
        have hjn : j ≠ node := fun h => hj (by simp [h])
        have hjr : j ∉ rest := fun h => hj (by simp [h])
        rw [hstep, ih1 j hjr]
        simp [upd, hjn]
      · intro i y l' hdrop
        match i with
        | 0 =>
          simp only [List.drop_zero, List.cons.injEq] at hdrop
          obtain ⟨hy, _⟩ := hdrop
          subst hy
          rw [hstep, ih1 node hnotmem]
          simp [upd]
        | i + 1 =>
          rw [List.drop_succ_cons] at hdrop
          have hy_mem : y ∈ rest := by
            have hmem : y ∈ rest.drop i := by rw [hdrop]; simp
            exact List.mem_of_mem_drop hmem
          rw [hstep, ih2 i y l' hdrop, hagree y hy_mem, xorParity]

/-- C2: `MCTS::backpropagate(leaf)` walks the parent chain from the leaf to
the sentinel (arena index 0); writing `v` for the leaf's stored value, the
node at even depth from the leaf gains `v` on `w` and the node at odd depth
gains `1 − v`, every visited node's `n` is incremented by one and its
`virtual_loss` decremented by one; nodes off the walk — in particular the
sentinel at index 0 — are untouched.  `path` is the visited chain
(head = leaf, last = root), and `path.drop i = y :: l'` singles out the node
`y` at depth `i` from the leaf. -/
theorem c2_backpropagate_updates (t : ℕ → Node) (leaf fuel : ℕ)
    (path : List ℕ) (hchain : chain t leaf fuel = some path)
    (hvl : ∀ x ∈ path, 1 ≤ (t x).virtual_loss) :
    (∀ j, j ∉ path → backpropagate t leaf fuel j = t j) ∧
    backpropagate t leaf fuel 0 = t 0 ∧
    (∀ (i y : ℕ) (l' : List ℕ), path.drop i = y :: l' →
      backpropagate t leaf fuel y =
        { t y with
            w := (t y).w +
              (if i % 2 = 0 then (t leaf).v else 1 - (t leaf).v),
            n := (t y).n + 1,
            virtual_loss := (t y).virtual_loss - 1 } ∧
      (backpropagate t leaf fuel y).virtual_loss + 1 =
        (t y).virtual_loss) := by
  obtain ⟨h1, h2⟩ := backpropAux_visit ((t leaf).v) path t leaf false fuel hchain
  refine ⟨h1, h1 0 (chain_zero_notMem t fuel leaf path hchain), ?_⟩
  intro i y l' hdrop
  have hy_mem : y ∈ path := by
    have hmem : y ∈ path.drop i := by rw [hdrop]; simp
    exact List.mem_of_mem_drop hmem
  have hupd := h2 i y l' hdrop
  have hflip : backpropNodeUpd (t y)
      (Bool.xor false (decide (i % 2 = 1))) ((t leaf).v) =
      { t y with
          w := (t y).w + (if i % 2 = 0 then (t leaf).v else 1 - (t leaf).v),
          n := (t y).n + 1,
          virtual_loss := (t y).virtual_loss - 1 } := by
    rcases Nat.mod_two_eq_zero_or_one i with h | h <;>
      simp [backpropNodeUpd, flipVal, h]
  refine ⟨hupd.trans hflip, ?_⟩
  show (backpropAux ((t leaf).v) t leaf false fuel y).virtual_loss + 1 =
    (t y).virtual_loss
  rw [hupd]
  have := hvl y hy_mem
  simp [backpropNodeUpd]
  omega

/-- A concrete three-node arena for the C2 witness: node 2 (the leaf, value
¼, one pending virtual loss) has parent 1 (the root, `w = 2`, `n = 5`, one
pending virtual loss), whose parent is the sentinel 0. -/
def c2Tree : ℕ → Node :=
  fun j =>
    if j = 1 then
      { n := 5, v := 0, p := 1, w := 2, m := NULL_MOVE, parent := 0,
        children := [2], is_terminal := false, virtual_loss := 1,
        is_used := true }
    else if j = 2 then
      { n := 0, v := 1 / 4, p := 1, w := 0, m := NULL_MOVE, parent := 1,
        children := [], is_terminal := false, virtual_loss := 1,
        is_used := true }
    else Node.new 0 NULL_MOVE 0 false

theorem c2_backpropagate_updates_witness :
    chain c2Tree 2 3 = some [2, 1] ∧
      backpropagate c2Tree 2 3 1 =
        { c2Tree 1 with
            w := (c2Tree 1).w +
              (if 1 % 2 = 0 then (c2Tree 2).v else 1 - (c2Tree 2).v),
            n := (c2Tree 1).n + 1,
            virtual_loss := (c2Tree 1).virtual_loss - 1 } :=
  ⟨by decide,
    ((c2_backpropagate_updates c2Tree 2 3 [2, 1] (by decide)
      (by decide)).2.2 1 1 [] (by decide)).1⟩

/-! ## Arena allocation probe (C5) and node evaluation/expansion (C3) -/

/-- The linear free-slot probe of `MCTS::evaluate`
(src/mcts.rs lines 387-404): starting at `index`, replace index 0 by 1,
stop when the examined slot is unused, otherwise advance to
`(index + 1) % size`.  The source loop has no exit when every slot is used;
the model makes each unrolling explicit through `fuel`, so `none` means the
loop is still running after `fuel` iterations. -/
def probeAux (used : ℕ → Bool) (size : ℕ) : ℕ → ℕ → Option ℕ
  | _, 0 => none
  | index, fuel + 1 =>
    let index := if index = 0 then 1 else index
    if used index = false then some index
    else probeAux used size ((index + 1) % size) fuel

/-- The original-claim reading of the probe contract: for NO bound does the
probe exit — i.e. the loop runs forever.  (The source has no fatal-failure
path at all; on a fully used arena the loop simply never terminates.) -/
def probeNeverFinds (used : ℕ → Bool) (size start : ℕ) : Prop :=
  ∀ fuel, probeAux used size start fuel = none

/-- The `Position` collaborator (src/position.rs is outside the verified
sources).  Modelled from the spec, §6: `generate_moves` (legal moves in a
stable order), `is_repetition` returning
`(is_repetition, my_check_repetition, op_check_repetition)`, `ply`,
`side_to_move`, and the game record `kif` (`kif[ply-1]` is the last played
move). -/
structure Pos where
  moves : List Mv
  is_rep : Bool
  my_check_rep : Bool
  op_check_rep : Bool
  ply : ℕ
  side_to_move : Color
  kif : List Mv

/-- The child-allocation loop of `MCTS::evaluate`
(src/mcts.rs lines 384-405): for each legal move, probe for a free slot,
write `Node::new(node, m, softmax-share, true)` there, append the slot to
the parent's `children`, advance the cursor to `(index + 1) % size` and
bump `node_used_count`.  `none` models the probe failing to find a slot
within `fuel` iterations (the source would loop forever). -/
def allocChildren (ops : FloatOps) (fuel : ℕ) (policy : ℕ → ℚ)
    (policy_max legal_policy_sum : ℚ) (node : ℕ) :
    MCTSState → List Mv → Option MCTSState
  | st, [] => some st
  | st, m :: rest =>
    match probeAux (fun i => (st.tree i).is_used) st.size st.node_index fuel with
    | none => none
    | some index =>
      let p := ops.exp (policy m.policy_index - policy_max) / legal_policy_sum
      let t1 := upd st.tree index (Node.new node m p true)
      let t2 := upd t1 node
        ({ t1 node with children := (t1 node).children ++ [index] })
      allocChildren ops fuel policy policy_max legal_policy_sum node
        { st with tree := t2, node_index := (index + 1) % st.size,
                  node_used_count := st.node_used_count + 1 } rest

/-- Source `MCTS::evaluate` (src/mcts.rs lines 324-409), step for step:
no-op when the node is already expanded or terminal; otherwise compute the
legality-masked softmax normalisation (max-subtract), set `is_terminal` when
a repetition is detected, no legal move exists, or the ply cap `maxPly` is
reached; overwrite `value` for terminal nodes (check-repetition loser 0 /
winner 1, plain repetition by side to move, ply cap ½, and for a moveless
position 0, or 1 if the last move was a pawn drop); allocate a child per
legal move if non-terminal; finally store the value in `v`.
`maxPly` stands for the collaborator constant `MAX_PLY`; in the source the
moveless branch indexes `kif[ply - 1]`, which aborts when `ply = 0` —
the model totalises that read with `getD` and theorems guard `1 ≤ ply`. -/
def evaluate (ops : FloatOps) (fuel maxPly : ℕ) (st : MCTSState) (node : ℕ)
    (pos : Pos) (policy : ℕ → ℚ) (value : ℚ) : Option MCTSState :=
  if (st.tree node).children.length > 0 ∨ (st.tree node).is_terminal then
    some st
  else
    let policy_max := pos.moves.foldl
      (fun acc m => if policy m.policy_index > acc then policy m.policy_index
        else acc) (-F32MAX)
    let legal_policy_sum := pos.moves.foldl
      (fun acc m => acc + ops.exp (policy m.policy_index - policy_max)) 0
    let isTerm : Bool := pos.is_rep || pos.moves.isEmpty ||
      decide (pos.ply = maxPly)
    let st1 : MCTSState :=
      if isTerm then
        { st with tree := upd st.tree node ({ st.tree node with is_terminal := true }) }
      else st
    let value1 :=
      if isTerm then
        if pos.my_check_rep then 0
        else if pos.op_check_rep then 1
        else if pos.is_rep then
          (if pos.side_to_move = Color.WHITE then 0 else 1)
        else if pos.ply = maxPly then (1 : ℚ) / 2
        else value
      else value
    let value2 :=
      if pos.moves.isEmpty then
        if (pos.kif.getD (pos.ply - 1) NULL_MOVE).is_pawn &&
            (pos.kif.getD (pos.ply - 1) NULL_MOVE).is_hand then (1 : ℚ)
        else 0
      else value1
    let alloc :=
      if isTerm then some st1
      else allocChildren ops fuel policy policy_max legal_policy_sum node
        st1 pos.moves
    match alloc with
    | none => none
    | some st2 =>
      some { st2 with tree := upd st2.tree node ({ st2.tree node with v := value2 }) }

theorem isEmpty_false_of_ne {l : List Mv} (h : l ≠ []) : l.isEmpty = false := by
  cases l with
  | nil => exact absurd rfl h
  | cons a t => rfl

/-- The value a node receives when `MCTS::evaluate` marks it terminal
(src/mcts.rs lines 357-380, with the terminal flag already known true):
the `my/op` check-repetition branches, the plain-repetition side-to-move
branch, the ply-cap ½ branch, and the overriding moveless branch (1 for a
pawn-drop mate, 0 for a regular mate). -/
def evalTermValue (maxPly : ℕ) (pos : Pos) (value : ℚ) : ℚ :=
  let value1 : ℚ :=
    if pos.my_check_rep then 0
    else if pos.op_check_rep then 1
    else if pos.is_rep then (if pos.side_to_move = Color.WHITE then 0 else 1)
    else if pos.ply = maxPly then (1 : ℚ) / 2
    else value
  if pos.moves.isEmpty then
    if (pos.kif.getD (pos.ply - 1) NULL_MOVE).is_pawn &&
        (pos.kif.getD (pos.ply - 1) NULL_MOVE).is_hand then 1
    else 0
  else value1

theorem evaluate_of_terminal (ops : FloatOps) (fuel maxPly : ℕ)
    (st : MCTSState) (node : ℕ) (pos : Pos) (policy : ℕ → ℚ) (value : ℚ)
    (h1 : (st.tree node).children = [])
    (h2 : (st.tree node).is_terminal = false)
    (hT : (pos.is_rep || pos.moves.isEmpty || decide (pos.ply = maxPly)) = true) :
    Option.map (fun s => ((s.tree node).v, (s.tree node).is_terminal))
        (evaluate ops fuel maxPly st node pos policy value) =
      some (evalTermValue maxPly pos value, true) := by
  have hcond : ¬((st.tree node).children.length > 0 ∨
      (st.tree node).is_terminal = true) := by
    simp [h1, h2]
  unfold evaluate
  rw [if_neg hcond]
  simp only [hT, if_true, Option.map_some']
  simp [upd, evalTermValue]

/-- C3: whenever `MCTS::evaluate` marks an unexpanded non-terminal node
terminal, the stored value follows the specification's rules: a repetition
in which the mover's own perpetual check fires is worth 0 (1 when the
opponent's flag fires), a non-check repetition is worth 0 for White to move
and 1 otherwise, hitting the ply cap is worth ½, and a moveless position is
worth 0 (checkmate) except 1 when the last played move was a pawn drop. -/
theorem c3_evaluate_terminal_values (ops : FloatOps) (fuel maxPly : ℕ)
    (st : MCTSState) (node : ℕ) (pos : Pos) (policy : ℕ → ℚ) (value : ℚ)
    (h1 : (st.tree node).children = [])
    (h2 : (st.tree node).is_terminal = false) :
    ((pos.is_rep = true ∨ pos.moves = [] ∨ pos.ply = maxPly) →
      Option.map (fun s => (s.tree node).is_terminal)
        (evaluate ops fuel maxPly st node pos policy value) = some true) ∧
    (pos.is_rep = true → pos.my_check_rep = true → pos.moves ≠ [] →
      Option.map (fun s => (s.tree node).v)
        (evaluate ops fuel maxPly st node pos policy value) = some 0) ∧
    (pos.is_rep = true → pos.my_check_rep = false → pos.op_check_rep = true →
      pos.moves ≠ [] →
      Option.map (fun s => (s.tree node).v)
        (evaluate ops fuel maxPly st node pos policy value) = some 1) ∧
    (pos.is_rep = true → pos.my_check_rep = false → pos.op_check_rep = false →
      pos.moves ≠ [] →
      Option.map (fun s => (s.tree node).v)
        (evaluate ops fuel maxPly st node pos policy value) =
        some (if pos.side_to_move = Color.WHITE then 0 else 1)) ∧
    (pos.is_rep = false → pos.my_check_rep = false → pos.op_check_rep = false →
      pos.ply = maxPly → pos.moves ≠ [] →
      Option.map (fun s => (s.tree node).v)
        (evaluate ops fuel maxPly st node pos policy value) = some (1 / 2)) ∧
    (pos.moves = [] → 1 ≤ pos.ply →
      Option.map (fun s => (s.tree node).v)
        (evaluate ops fuel maxPly st node pos policy value) =
        some (if (pos.kif.getD (pos.ply - 1) NULL_MOVE).is_pawn ∧
            (pos.kif.getD (pos.ply - 1) NULL_MOVE).is_hand then 1 else 0)) := by
  have key : ∀ hT : (pos.is_rep || pos.moves.isEmpty ||
      decide (pos.ply = maxPly)) = true,
      Option.map (fun s => (s.tree node).v)
          (evaluate ops fuel maxPly st node pos policy value) =
        some (evalTermValue maxPly pos value) ∧
      Option.map (fun s => (s.tree node).is_terminal)
          (evaluate ops fuel maxPly st node pos policy value) = some true := by
    intro hT
    have h := evaluate_of_terminal ops fuel maxPly st node pos policy value
      h1 h2 hT
    obtain ⟨s, hs, hpair⟩ := Option.map_eq_some'.mp h
    have hv : (s.tree node).v = evalTermValue maxPly pos value := by
      have := congrArg Prod.fst hpair
      simpa using this
    have hterm : (s.tree node).is_terminal = true := by
      have := congrArg Prod.snd hpair
      simpa using this
    rw [hs]
    simp [hv, hterm]
  refine ⟨?_, ?_, ?_, ?_, ?_, ?_⟩
  · intro hc
    refine (key ?_).2
    rcases hc with h | h | h
    · simp [h]
    · simp [h]
    · simp [h]
  · intro hr hmy hmv
    rw [(key (by simp [hr])).1]
    simp [evalTermValue, hmy, isEmpty_false_of_ne hmv]
  · intro hr hmy hop hmv
    rw [(key (by simp [hr])).1]
    simp [evalTermValue, hmy, hop, isEmpty_false_of_ne hmv]
  · intro hr hmy hop hmv
    rw [(key (by simp [hr])).1]
    simp [evalTermValue, hmy, hop, hr, isEmpty_false_of_ne hmv]
  · intro hr hmy hop hply hmv
    rw [(key (by simp [hply])).1]
    simp [evalTermValue, hmy, hop, hr, hply, isEmpty_false_of_ne hmv]
  · intro hmv _
    rw [(key (by simp [hmv])).1]
    simp [evalTermValue, hmv, Bool.and_eq_true]

/-- A fresh one-node arena for the C3 witness: slot 1 is live, unexpanded,
non-terminal. -/
def c3State : MCTSState :=
  { size := 4,
    tree := fun j =>
      if j = 1 then
        { n := 0, v := 0, p := 1, w := 0, m := NULL_MOVE, parent := 0,
          children := [], is_terminal := false, virtual_loss := 1,
          is_used := true }
      else Node.new 0 NULL_MOVE 0 false,
    node_index := 2, node_used_count := 2 }

/-- A position whose repetition was caused by the mover's own perpetual
check (C3 witness input). -/
def c3Pos : Pos :=
  { moves := [{ policy_index := 7 }],
    is_rep := true, my_check_rep := true, op_check_rep := false,
    ply := 3, side_to_move := Color.BLACK,
    kif := [NULL_MOVE, NULL_MOVE, NULL_MOVE] }

theorem c3_evaluate_terminal_values_witness :
    Option.map (fun s => (s.tree 1).v)
        (evaluate idOps 4 24 c3State 1 c3Pos (fun _ => 0) (37 / 100)) =
      some 0 :=
  (c3_evaluate_terminal_values idOps 4 24 c3State 1 c3Pos (fun _ => 0)
      (37 / 100) (by decide) (by decide)).2.1 (by decide) (by decide)
    (by decide)

theorem probeAux_allUsed (used : ℕ → Bool) (size : ℕ)
    (h : ∀ i, used i = true) :
    ∀ (fuel start : ℕ), probeAux used size start fuel = none := by
  intro fuel
  induction fuel with
  | zero => intro start; rfl
  | succ f ih => intro start; simp [probeAux, h, ih]

/-- C5 counterexample: on a fully used arena (here of size 3, probing from
the cursor 1) the allocation probe of `MCTS::evaluate` exits for NO fuel
bound whatsoever — the source loop runs forever and there is no fatal
failure path, refuting "bounded and fails loudly". -/
theorem c5_probe_loops_forever_counterexample :
    probeNeverFinds (fun _ => true) 3 1 :=
  fun fuel => probeAux_allUsed (fun _ => true) 3 (fun _ => rfl) fuel 1

/-- The index normalisation at the top of the probe loop
(`if index == 0 { index = 1; }`, src/mcts.rs lines 389-391). -/
def probeNorm (index : ℕ) : ℕ := if index = 0 then 1 else index

theorem probeAux_succ_eq (used : ℕ → Bool) (size index f : ℕ) :
    probeAux used size index (f + 1) =
      if used (probeNorm index) = false then some (probeNorm index)
      else probeAux used size ((probeNorm index + 1) % size) f := rfl

/-- Distance from slot `j` to slot `jf` along the probe's examination cycle
`1, 2, …, size-1, 1, 2, …` (index 0 is skipped). -/
def cdist (size jf j : ℕ) : ℕ :=
  if j ≤ jf then jf - j else jf + (size - 1) - j

theorem cdist_step (size jf j : ℕ) (hsz : 2 ≤ size) (hjf1 : 1 ≤ jf)
    (hjf2 : jf < size) (hj1 : 1 ≤ j) (hj2 : j < size) (hne : j ≠ jf) :
    cdist size jf (probeNorm ((j + 1) % size)) + 1 = cdist size jf j := by
  by_cases hcase : j + 1 < size
  · have h1 : probeNorm (j + 1) = j + 1 := if_neg (by omega)
    rw [Nat.mod_eq_of_lt hcase, h1]
    unfold cdist
    split_ifs <;> omega
  · have hj1s : j + 1 = size := by omega
    have h1 : probeNorm 0 = 1 := rfl
    rw [hj1s, Nat.mod_self, h1]
    unfold cdist
    split_ifs <;> omega

theorem probeAux_finds (used : ℕ → Bool) (size jf : ℕ) (hsz : 2 ≤ size)
    (hjf1 : 1 ≤ jf) (hjf2 : jf < size) (hfree : used jf = false) :
    ∀ (b start : ℕ), start < size → cdist size jf (probeNorm start) < b →
      ∃ jr, probeAux used size start b = some jr ∧ used jr = false := by
  intro b
  induction b with
  | zero => intro start _ hd; omega
  | succ f ih =>
    intro start hstart hd
    have hj1 : 1 ≤ probeNorm start := by unfold probeNorm; split_ifs <;> omega
    have hj2 : probeNorm start < size := by
      unfold probeNorm; split_ifs <;> omega
    rw [probeAux_succ_eq]
    by_cases hu : used (probeNorm start) = false
    · exact ⟨probeNorm start, by rw [if_pos hu], hu⟩
    · rw [if_neg hu]
      have hne : probeNorm start ≠ jf := by
        intro h
        rw [h, hfree] at hu
        exact hu rfl
      have hstep := cdist_step size jf (probeNorm start) hsz hjf1 hjf2 hj1
        hj2 hne
      have hnext : (probeNorm start + 1) % size < size :=
        Nat.mod_lt _ (by omega)
      exact ih ((probeNorm start + 1) % size) hnext (by omega)

/-- C5 amended: the probe of `MCTS::evaluate` is unbounded in the source;
whenever some slot with index in `[1, size)` is unused (and the cursor is in
range, `size ≥ 2`), the probe terminates within `size + 1` iterations and
returns an unused slot — but when every slot is used it loops forever, with
no fatal failure path (see the counterexample). -/
theorem c5_probe_finds_free_slot (used : ℕ → Bool) (size start jf : ℕ)
    (hsz : 2 ≤ size) (hstart : start < size) (hjf1 : 1 ≤ jf)
    (hjf2 : jf < size) (hfree : used jf = false) :
    ∃ jr, probeAux used size start (size + 1) = some jr ∧
      used jr = false := by
  apply probeAux_finds used size jf hsz hjf1 hjf2 hfree (size + 1) start hstart
  have h1 : 1 ≤ probeNorm start := by unfold probeNorm; split_ifs <;> omega
  have h2 : probeNorm start < size := by unfold probeNorm; split_ifs <;> omega
  unfold cdist
  split_ifs <;> omega

theorem c5_probe_finds_free_slot_witness :
    ∃ jr, probeAux (fun i => decide (i = 1)) 3 1 4 = some jr ∧
      (fun i => decide (i = 1)) jr = false :=
  c5_probe_finds_free_slot (fun i => decide (i = 1)) 3 1 2 (by omega)
    (by omega) (by omega) (by omega) (by decide)

/-! ## Arena sizing (C6) -/

/-- The arena-capacity computation of `MCTS::new` (src/mcts.rs lines
104-115): `(memory * 1024³ / struct_size) as usize`, where the source
divides by `std::mem::size_of::<MCTS>()` — NOT `size_of::<Node>()` as the
specification requires.  `structSize` abstracts the byte size handed to the
division so the two readings can be compared. -/
def mctsArenaCapacity (memory : ℚ) (structSize : ℕ) : ℕ :=
  (⌊memory * 2 ^ 30 / (structSize : ℚ)⌋).toNat

/-- C6 (code bug): at a 1 GiB budget, dividing by
`size_of::<MCTS>() = 56` bytes (x86-64: `usize` + 3-word `Vec` + three more
`usize` fields) as the source does yields 19173961 slots, while the
specification's `floor(budget·2³⁰ / sizeof(Node))` with
`size_of::<Node>() = 64` bytes (4 `f32` + `u32` + a 4-byte `Move` +
`usize` + 3-word `Vec` + 2 `bool` + `u32`, padded to an 8-byte alignment)
yields 16777216 — the source divides by the size of the wrong struct. -/
theorem c6_capacity_divides_by_wrong_struct :
    mctsArenaCapacity 1 56 = 19173961 ∧ mctsArenaCapacity 1 64 = 16777216 ∧
      mctsArenaCapacity 1 56 ≠ mctsArenaCapacity 1 64 := by
  have h56 : mctsArenaCapacity 1 56 = 19173961 := by
    unfold mctsArenaCapacity
    have h : (⌊(1 : ℚ) * 2 ^ 30 / ((56 : ℕ) : ℚ)⌋ : ℤ) = 19173961 := by
      rw [Int.floor_eq_iff]
      norm_num
    rw [h]
    rfl
  have h64 : mctsArenaCapacity 1 64 = 16777216 := by
    unfold mctsArenaCapacity
    have h : (⌊(1 : ℚ) * 2 ^ 30 / ((64 : ℕ) : ℚ)⌋ : ℤ) = 16777216 := by
      rw [Int.floor_eq_iff]
      norm_num
    rw [h]
    rfl
  refine ⟨h56, h64, ?_⟩
  rw [h56, h64]
  norm_num

/-! ## Dump and target pruning (C4) -/

/-- Source `MCTS::select_n_max_child` (src/mcts.rs lines 697-709): the first child
with the strictly largest visit count (the first child is always adopted
because `n_max_child == 0` initially). -/
def selectNMaxChildAux (t : ℕ → Node) : List ℕ → ℕ → ℕ → ℕ
  | [], _, best => best
  | child :: rest, n_max, best =>
    if best = 0 ∨ (t child).n > n_max then
      selectNMaxChildAux t rest (t child).n child
    else
      selectNMaxChildAux t rest n_max best

/-- Source `MCTS::select_n_max_child` entry point. -/
def select_n_max_child (t : ℕ → Node) (node : ℕ) : ℕ :=
  selectNMaxChildAux t (t node).children 0 0

/-- The Rust `as usize` cast from `f32` (truncation toward zero, clamped at
zero for negative inputs), applied to exact rationals. -/
def ratToUsize (x : ℚ) : ℕ := (⌊x⌋).toNat

/-- The inner decrement loop of `MCTS::dump`'s target pruning
(src/mcts.rs lines 549-562): while the iteration budget lasts, stop if the
child's `n` is 0, otherwise decrement `n`, recompute the unforced PUCT with
the parent total lowered by the current `remove` counter, and revert the
decrement (and stop) when that PUCT is ≥ the reference. -/
def pruneIter (ops : FloatOps) (ref : ℚ) (parentN : ℕ) :
    Node → ℕ → ℕ → Node
  | c, _, 0 => c
  | c, remove, budget + 1 =>
    if c.n = 0 then c
    else
      let c' : Node := { c with n := c.n - 1 }
      if c'.get_puct ops (((parentN - remove : ℕ) : ℚ)) false ≥ ref then
        { c' with n := c'.n + 1 }
      else
        pruneIter ops ref parentN c' (remove + 1) budget

/-- Target pruning of one non-best child (src/mcts.rs lines 546-562):
`n_forced = sqrt(2·p·parent.n)`, iterated for `remove in 1..(n_forced as
usize)`, i.e. at most `n_forced as usize - 1` decrements. -/
def pruneChild (ops : FloatOps) (ref : ℚ) (parentN : ℕ) (c : Node) : Node :=
  pruneIter ops ref parentN c 1
    (ratToUsize (ops.sqrt (2 * c.p * (parentN : ℚ))) - 1)

/-- The per-child pruning pass of `MCTS::dump` (src/mcts.rs lines 541-563):
every cloned child except the max-visit one is pruned in place; the parent's
live visit count is re-read from the evolving state, as in the source. -/
def pruneFold (ops : FloatOps) (ref : ℚ) (node n_max_child : ℕ) :
    MCTSState → List ℕ → MCTSState
  | st, [] => st
  | st, c :: rest =>
    if c = n_max_child then pruneFold ops ref node n_max_child st rest
    else
      pruneFold ops ref node n_max_child
        { st with tree := upd st.tree c (pruneChild ops ref ((st.tree node).n) (st.tree c)) } rest

/-- Source `MCTS::dump` (src/mcts.rs lines 526-584): optional target pruning, then
the root Q (`w/n`, 0 when unvisited) and the per-child visit distribution
(skipping zero-visit children when `remove_zeros`); the returned state
carries the pruning mutations. -/
def dump (ops : FloatOps) (st : MCTSState) (node : ℕ)
    (target_pruning remove_zeros : Bool) :
    MCTSState × ℕ × ℚ × List (Mv × ℕ) :=
  let st1 :=
    if target_pruning then
      let n_max_child := select_n_max_child st.tree node
      let n_max_puct :=
        (st.tree n_max_child).get_puct ops (((st.tree node).n : ℕ) : ℚ) false
      pruneFold ops n_max_puct node n_max_child st (st.tree node).children
    else st
  let q : ℚ :=
    if (st1.tree node).n = 0 then 0
    else (st1.tree node).w / (((st1.tree node).n : ℕ) : ℚ)
  let kept := (st1.tree node).children.filter
    (fun c => !(remove_zeros && decide ((st1.tree c).n = 0)))
  let sum_n := kept.foldl (fun a c => a + (st1.tree c).n) 0
  (st1, sum_n, q, kept.map (fun c => ((st1.tree c).m, (st1.tree c).n)))

theorem node_upd_upd (c : Node) (a b : ℕ) :
    ({ ({ c with n := a } : Node) with n := b } : Node) = { c with n := b } :=
  rfl

theorem node_upd_self (c : Node) : ({ c with n := c.n } : Node) = c := rfl

theorem node_upd_n (c : Node) (a : ℕ) :
    ({ c with n := a } : Node).n = a := rfl

theorem pruneIter_zero (ops : FloatOps) (ref : ℚ) (parentN : ℕ) (c : Node)
    (remove : ℕ) : pruneIter ops ref parentN c remove 0 = c := rfl

theorem pruneIter_succ (ops : FloatOps) (ref : ℚ) (parentN : ℕ) (c : Node)
    (remove b : ℕ) :
    pruneIter ops ref parentN c remove (b + 1) =
      if c.n = 0 then c
      else
        if Node.get_puct ops ({ c with n := c.n - 1 })
            (((parentN - remove : ℕ) : ℚ)) false ≥ ref then
          { c with n := c.n - 1 + 1 }
        else
          pruneIter ops ref parentN ({ c with n := c.n - 1 }) (remove + 1)
            b := rfl

theorem pruneIter_spec (ops : FloatOps) (ref : ℚ) (parentN : ℕ) :
    ∀ (budget : ℕ) (c : Node) (remove : ℕ),
      ∃ k, k ≤ budget ∧ k ≤ c.n ∧
        pruneIter ops ref parentN c remove budget =
          { c with n := c.n - k } ∧
        (1 ≤ k →
          Node.get_puct ops ({ c with n := c.n - k })
            (((parentN - (remove + k - 1) : ℕ) : ℚ)) false < ref) := by
  intro budget
  induction budget with
  | zero =>
    intro c remove
    refine ⟨0, le_refl _, Nat.zero_le _, ?_, ?_⟩
    · rw [pruneIter_zero]
      simp only [Nat.sub_zero, node_upd_self]
    · intro h
      exact absurd h (by omega)
  | succ b ih =>
    intro c remove
    by_cases hc0 : c.n = 0
    · refine ⟨0, Nat.zero_le _, Nat.zero_le _, ?_, ?_⟩
      · rw [pruneIter_succ, if_pos hc0]
        simp only [Nat.sub_zero, node_upd_self]
      · intro h
        exact absurd h (by omega)
    · by_cases hge : Node.get_puct ops ({ c with n := c.n - 1 })
          (((parentN - remove : ℕ) : ℚ)) false ≥ ref
      · refine ⟨0, Nat.zero_le _, Nat.zero_le _, ?_, ?_⟩
        · rw [pruneIter_succ, if_neg hc0, if_pos hge]
          have h1 : c.n - 1 + 1 = c.n := by omega
          rw [h1, Nat.sub_zero, node_upd_self]
        · intro h
          exact absurd h (by omega)
      · obtain ⟨k', h1, h2, h3, h4⟩ := ih ({ c with n := c.n - 1 }) (remove + 1)
        have h2' : k' ≤ c.n - 1 := h2
        refine ⟨k' + 1, by omega, by omega, ?_, ?_⟩
        · rw [pruneIter_succ, if_neg hc0, if_neg hge, h3, node_upd_upd,
            node_upd_n]
          have hs : c.n - 1 - k' = c.n - (k' + 1) := by omega
          rw [hs]
        · intro _
          rcases Nat.eq_zero_or_pos k' with hk0 | hk1
          · subst hk0
            have hidx : remove + (0 + 1) - 1 = remove := by omega
            rw [hidx]
            exact lt_of_not_ge hge
          · have h4' := h4 hk1
            rw [node_upd_upd, node_upd_n] at h4'
            have hs : c.n - 1 - k' = c.n - (k' + 1) := by omega
            have hidx : remove + 1 + k' - 1 = remove + (k' + 1) - 1 := by omega
            rw [hs, hidx] at h4'
            exact h4'

theorem pruneFold_nil (ops : FloatOps) (ref : ℚ) (node best : ℕ)
    (st : MCTSState) : pruneFold ops ref node best st [] = st := rfl

theorem pruneFold_cons (ops : FloatOps) (ref : ℚ) (node best a : ℕ)
    (l : List ℕ) (st : MCTSState) :
    pruneFold ops ref node best st (a :: l) =
      if a = best then pruneFold ops ref node best st l
      else
        pruneFold ops ref node best
          { st with tree := upd st.tree a (pruneChild ops ref ((st.tree node).n) (st.tree a)) }
          l := rfl

theorem pruneFold_spec (ops : FloatOps) (ref : ℚ) (node best : ℕ) :
    ∀ (l : List ℕ) (st : MCTSState), l.Nodup → node ∉ l →
      (∀ j, j ∉ l → (pruneFold ops ref node best st l).tree j = st.tree j) ∧
      (∀ c ∈ l, c = best →
        (pruneFold ops ref node best st l).tree c = st.tree c) ∧
      (∀ c ∈ l, c ≠ best →
        (pruneFold ops ref node best st l).tree c =
          pruneChild ops ref ((st.tree node).n) (st.tree c)) := by
  intro l
  induction l with
  | nil =>
    intro st _ _
    refine ⟨fun j _ => rfl, ?_, ?_⟩ <;> intro c hc <;> simp at hc
  | cons a rest ih =>
    intro st hnd hnode
    have hnd' : rest.Nodup := (List.nodup_cons.mp hnd).2
    have hamem : a ∉ rest := (List.nodup_cons.mp hnd).1
    have hnode' : node ∉ rest := fun h => hnode (by simp [h])
    have hna : node ≠ a := fun h => hnode (by simp [h])
    by_cases hab : a = best
    · rw [pruneFold_cons, if_pos hab]
      obtain ⟨i1, i2, i3⟩ := ih st hnd' hnode'
      refine ⟨?_, ?_, ?_⟩
      · intro j hj
        exact i1 j (fun h => hj (by simp [h]))
      · intro c hc hcb
        rcases List.mem_cons.mp hc with hca | hcr
        · subst hca
          exact i1 c hamem
        · exact i2 c hcr hcb
      · intro c hc hcb
        rcases List.mem_cons.mp hc with hca | hcr
        · exact absurd (hca.trans hab) hcb
        · exact i3 c hcr hcb
    · rw [pruneFold_cons, if_neg hab]
      obtain ⟨i1, i2, i3⟩ := ih
        { st with tree := upd st.tree a (pruneChild ops ref ((st.tree node).n) (st.tree a)) }
        hnd' hnode'
      have hupd_node : upd st.tree a
          (pruneChild ops ref ((st.tree node).n) (st.tree a)) node =
          st.tree node := by
        simp [upd, hna]
      have hupd_ne : ∀ x, x ≠ a → upd st.tree a
          (pruneChild ops ref ((st.tree node).n) (st.tree a)) x =
          st.tree x := by
        intro x hx
        simp [upd, hx]
      have hupd_a : upd st.tree a
          (pruneChild ops ref ((st.tree node).n) (st.tree a)) a =
          pruneChild ops ref ((st.tree node).n) (st.tree a) := by
        simp [upd]
      refine ⟨?_, ?_, ?_⟩
      · intro j hj
        have hja : j ≠ a := fun h => hj (by simp [h])
        have hjr : j ∉ rest := fun h => hj (by simp [h])
        rw [i1 j hjr]
        exact hupd_ne j hja
      · intro c hc hcb
        rcases List.mem_cons.mp hc with hca | hcr
        · exact absurd (hca ▸ hcb) hab
        · rw [i2 c hcr hcb]
          exact hupd_ne c (fun h => hamem (h ▸ hcr))
      · intro c hc hcb
        rcases List.mem_cons.mp hc with hca | hcr
        · subst hca
          rw [i1 c hamem]
          exact hupd_a
        · have h3 := i3 c hcr hcb
          dsimp only at h3
          rw [h3, hupd_node, hupd_ne c (fun h => hamem (h ▸ hcr))]

/-- C4 amended: after `dump(root, target_pruning = true, _)`, the best
(max-visit) child is untouched, and each other child's `n` is decremented at
most `⌊sqrt(2·p·parent.n)⌋ - 1` times (the `f32 → usize` cast truncates, and
the bound is clamped at zero) and never below 0; the PUCT after each
decrement is recomputed — without the forced-playouts flag — with the
parent's visit count decreased by the same amount, and a decrement whose
recomputed PUCT is ≥ the pre-pruning reference (the best child's unforced
PUCT) is reverted.  Consequently a child that kept at least one decrement
has final PUCT below the reference, but a child with no persisting
decrement (zero visits, zero budget, or an immediately reverted decrement —
e.g. a won terminal child whose PUCT is the `f32::MAX` sentinel) may keep a
PUCT above the reference, so the original claim's blanket postcondition
fails (see the counterexample). -/
theorem c4_dump_target_pruning_amended (ops : FloatOps) (st : MCTSState)
    (node : ℕ) (rz : Bool) (hnd : (st.tree node).children.Nodup)
    (hself : node ∉ (st.tree node).children) :
    (∀ c ∈ (st.tree node).children, c = select_n_max_child st.tree node →
      ((dump ops st node true rz).1).tree c = st.tree c) ∧
    (∀ c ∈ (st.tree node).children, c ≠ select_n_max_child st.tree node →
      ∃ k,
        k ≤ ratToUsize
          (ops.sqrt (2 * (st.tree c).p * (((st.tree node).n : ℕ) : ℚ))) - 1 ∧
        k ≤ (st.tree c).n ∧
        ((dump ops st node true rz).1).tree c =
          { st.tree c with n := (st.tree c).n - k } ∧
        (1 ≤ k →
          Node.get_puct ops ({ st.tree c with n := (st.tree c).n - k })
              ((((st.tree node).n - k : ℕ) : ℚ)) false <
            (st.tree (select_n_max_child st.tree node)).get_puct ops
              (((st.tree node).n : ℕ) : ℚ) false)) := by
  have hd : (dump ops st node true rz).1 =
      pruneFold ops
        ((st.tree (select_n_max_child st.tree node)).get_puct ops
          (((st.tree node).n : ℕ) : ℚ) false)
        node (select_n_max_child st.tree node) st (st.tree node).children :=
    rfl
  obtain ⟨i1, i2, i3⟩ := pruneFold_spec ops
    ((st.tree (select_n_max_child st.tree node)).get_puct ops
      (((st.tree node).n : ℕ) : ℚ) false)
    node (select_n_max_child st.tree node) (st.tree node).children st hnd hself
  constructor
  · intro c hc hcb
    rw [hd]
    exact i2 c hc hcb
  · intro c hc hcb
    obtain ⟨k, hk1, hk2, hk3, hk4⟩ := pruneIter_spec ops
      ((st.tree (select_n_max_child st.tree node)).get_puct ops
        (((st.tree node).n : ℕ) : ℚ) false)
      ((st.tree node).n)
      (ratToUsize
        (ops.sqrt (2 * (st.tree c).p * (((st.tree node).n : ℕ) : ℚ))) - 1)
      (st.tree c) 1
    refine ⟨k, hk1, hk2, ?_, ?_⟩
    · rw [hd, i3 c hc hcb]
      exact hk3
    · intro hk
      have h4 := hk4 hk
      have hidx : 1 + k - 1 = k := by omega
      rw [hidx] at h4
      exact h4

/-- Root (slot 1, `n = 6`) with a won terminal best child (slot 2, `v = 1`,
`n = 5`) and a lost terminal child (slot 3, `v = 0`, `n = 1`, prior 0):
the input on which target pruning leaves child 3's PUCT above the
reference. -/
def c4State : MCTSState :=
  { size := 8,
    tree := fun j =>
      if j = 1 then
        { n := 6, v := 0, p := 1, w := 3, m := NULL_MOVE, parent := 0,
          children := [2, 3], is_terminal := false, virtual_loss := 0,
          is_used := true }
      else if j = 2 then
        { n := 5, v := 1, p := 1 / 2, w := 4, m := { policy_index := 1 },
          parent := 1, children := [], is_terminal := true,
          virtual_loss := 0, is_used := true }
      else if j = 3 then
        { n := 1, v := 0, p := 0, w := 0, m := { policy_index := 2 },
          parent := 1, children := [], is_terminal := true,
          virtual_loss := 0, is_used := true }
      else Node.new 0 NULL_MOVE 0 false,
    node_index := 4, node_used_count := 4 }

theorem c4_dump_target_pruning_amended_witness :
    ∃ k,
      k ≤ ratToUsize
        (idOps.sqrt
          (2 * (c4State.tree 3).p * (((c4State.tree 1).n : ℕ) : ℚ))) - 1 ∧
      k ≤ (c4State.tree 3).n ∧
      ((dump idOps c4State 1 true false).1).tree 3 =
        { c4State.tree 3 with n := (c4State.tree 3).n - k } ∧
      (1 ≤ k →
        Node.get_puct idOps ({ c4State.tree 3 with n := (c4State.tree 3).n - k })
            ((((c4State.tree 1).n - k : ℕ) : ℚ)) false <
          (c4State.tree (select_n_max_child c4State.tree 1)).get_puct idOps
            (((c4State.tree 1).n : ℕ) : ℚ) false) :=
  (c4_dump_target_pruning_amended idOps c4State 1 false (by decide)
      (by decide)).2 3 (by decide) (by decide)

/-- C4 counterexample: on `c4State`, after `dump(1, target_pruning = true)`
the lost terminal child 3 (whose unforced PUCT is the `f32::MAX` sentinel
for +∞, and whose zero prior yields a zero pruning budget) keeps a PUCT
strictly ABOVE the pre-pruning reference PUCT of the best child 2 (−1, a
won terminal child), refuting the claim that no child's unforced PUCT
exceeds the reference after pruning. -/
theorem c4_dump_counterexample :
    Node.get_puct idOps (((dump idOps c4State 1 true false).1).tree 3)
        ((((((dump idOps c4State 1 true false).1).tree 1).n : ℕ) : ℚ)) false >
      Node.get_puct idOps (c4State.tree 2)
        (((c4State.tree 1).n : ℕ) : ℚ) false := by
  have hbest : select_n_max_child c4State.tree 1 = 2 := by decide
  have hchildren : (c4State.tree 1).children = [2, 3] := rfl
  have hprune : pruneChild idOps
      ((c4State.tree 2).get_puct idOps (((c4State.tree 1).n : ℕ) : ℚ) false)
      ((c4State.tree 1).n) (c4State.tree 3) = c4State.tree 3 := by
    unfold pruneChild
    have hz : (2 * (c4State.tree 3).p * (((c4State.tree 1).n : ℕ) : ℚ)) =
        0 := by
      norm_num [c4State]
    rw [hz]
    have hb : ratToUsize (idOps.sqrt 0) - 1 = 0 := by
      norm_num [ratToUsize, idOps]
    rw [hb, pruneIter_zero]
  have hd : (dump idOps c4State 1 true false).1 =
      { c4State with tree := upd c4State.tree 3 (pruneChild idOps ((c4State.tree 2).get_puct idOps (((c4State.tree 1).n : ℕ) : ℚ) false) ((c4State.tree 1).n) (c4State.tree 3)) } := by
    show pruneFold idOps
        ((c4State.tree (select_n_max_child c4State.tree 1)).get_puct idOps
          (((c4State.tree 1).n : ℕ) : ℚ) false)
        1 (select_n_max_child c4State.tree 1) c4State
        (c4State.tree 1).children = _
    rw [hbest, hchildren, pruneFold_cons, if_pos rfl, pruneFold_cons,
      if_neg (by omega), pruneFold_nil]
  rw [hd, hprune]
  have ht3 : ({ c4State with tree := upd c4State.tree 3 (c4State.tree 3) }).tree 3 =
      c4State.tree 3 := by
    simp [upd]
  have ht1 : ({ c4State with tree := upd c4State.tree 3 (c4State.tree 3) }).tree 1 =
      c4State.tree 1 := by
    simp [upd]
  rw [ht3, ht1]
  have hL : Node.get_puct idOps (c4State.tree 3)
      (((c4State.tree 1).n : ℕ) : ℚ) false = F32MAX := by
    norm_num [Node.get_puct, c4State]
  have hR : Node.get_puct idOps (c4State.tree 2)
      (((c4State.tree 1).n : ℕ) : ℚ) false = -1 := by
    norm_num [Node.get_puct, c4State]
  rw [hL, hR]
  norm_num [F32MAX]

/-! ## Move sampling from the root (C9) -/

/-- The skip test of `MCTS::softmax_sample_among_top_moves`
(src/mcts.rs lines 223-225 and 237-239): drop a child whose
`q = 1 - w / (n as f32)` is more than `away` below the best child's q.
Note the source uses NO virtual loss and NO zero-visit guard here (in `f32`
a zero-visit child yields a NaN `q` and the `<` test is false, so it is
never skipped; in the exact model `w / 0 = 0` gives `q = 1`, likewise never
skipped for `away ≥ 0` since `best_q ≤ 1` whenever `w ≥ 0`). -/
def topSkip (t : ℕ → Node) (best_q away : ℚ) (c : ℕ) : Bool :=
  decide (1 - (t c).w / (((t c).n : ℕ) : ℚ) < best_q - away)

/-- Weight `(n as f32).powf(1.0 / temperature)` (src/mcts.rs lines 228, 242). -/
def powCW (ops : FloatOps) (t : ℕ → Node) (temperature : ℚ) (c : ℕ) : ℚ :=
  ops.pow (((t c).n : ℕ) : ℚ) (1 / temperature)

/-- The cumulative sampling loop of `softmax_sample_among_top_moves`
(src/mcts.rs lines 236-246): skip filtered children, otherwise accumulate
`weight / sum` and return the first child whose cumulative mass exceeds the
random draw `r`. -/
def topScanPick (ops : FloatOps) (t : ℕ → Node)
    (best_q away temperature sum r : ℚ) : List ℕ → ℚ → Option Mv
  | [], _ => none
  | c :: rest, cum =>
    if topSkip t best_q away c then
      topScanPick ops t best_q away temperature sum r rest cum
    else
      if r < cum + powCW ops t temperature c / sum then some ((t c).m)
      else
        topScanPick ops t best_q away temperature sum r rest
          (cum + powCW ops t temperature c / sum)

/-- Source `MCTS::softmax_sample_among_top_moves` (src/mcts.rs lines 216-249).
The random draw `rng.gen::<f32>() ∈ [0,1)` is the explicit parameter `r`;
the fall-through returns the first child's move (`children[0]`), whether or
not it is in the support. -/
def softmax_sample_among_top_moves (ops : FloatOps) (t : ℕ → Node)
    (node : ℕ) (away temperature r : ℚ) : Mv :=
  let best_child := select_n_max_child t node
  let best_q := 1 - (t best_child).w / (((t best_child).n : ℕ) : ℚ)
  let sum := ((t node).children).foldl
    (fun a c => if topSkip t best_q away c then a
      else a + powCW ops t temperature c) 0
  match topScanPick ops t best_q away temperature sum r
      ((t node).children) 0 with
  | some m => m
  | none => (t (((t node).children).headD 0)).m

/-- The q of the best (max-visit) child as the source computes it
(src/mcts.rs line 218). -/
def topBestQ (t : ℕ → Node) (node : ℕ) : ℚ :=
  1 - (t (select_n_max_child t node)).w /
    (((t (select_n_max_child t node)).n : ℕ) : ℚ)

/-- The sampling support as the source restricts it: children passing the
`topSkip` test against the best child's `q = 1 - w/n`. -/
def topSupport (t : ℕ → Node) (node : ℕ) (away : ℚ) : List ℕ :=
  ((t node).children).filter (fun c => !topSkip t (topBestQ t node) away c)

/-- Total `n^(1/T)` weight of the support. -/
def topTotal (ops : FloatOps) (t : ℕ → Node) (node : ℕ)
    (away temperature : ℚ) : ℚ :=
  ((topSupport t node away).map (powCW ops t temperature)).sum

/-- A plain categorical pick by cumulative-mass threshold over a list of
children with weights `w`: the first child whose cumulative `w/total`
exceeds `r`. -/
def plainScan (t : ℕ → Node) (w : ℕ → ℚ) (total r : ℚ) :
    List ℕ → ℚ → Option Mv
  | [], _ => none
  | c :: rest, cum =>
    if r < cum + w c / total then some ((t c).m)
    else plainScan t w total r rest (cum + w c / total)

/-- The amended specification's sampler: restrict the support to children
whose `q = 1 - w/n` (no virtual loss, no zero-visit guard) is within `away`
of the best child's q, then pick from the support with probability
proportional to `n^(1/T)` via the cumulative threshold `r`; if the
threshold never fires, fall back to the first child overall. -/
def specAmendedTopSample (ops : FloatOps) (t : ℕ → Node) (node : ℕ)
    (away temperature r : ℚ) : Mv :=
  match plainScan t (powCW ops t temperature)
      (topTotal ops t node away temperature) r (topSupport t node away) 0 with
  | some m => m
  | none => (t (((t node).children).headD 0)).m

theorem skipFold_eq (w : ℕ → ℚ) (p : ℕ → Bool) :
    ∀ (l : List ℕ) (a0 : ℚ),
      l.foldl (fun a c => if p c then a else a + w c) a0 =
        a0 + ((l.filter (fun c => !p c)).map w).sum := by
  intro l
  induction l with
  | nil => intro a0; simp
  | cons c rest ih =>
    intro a0
    by_cases hp : p c = true
    · simp only [List.foldl_cons, List.filter_cons, hp, if_pos rfl,
        Bool.not_true, if_true]
      rw [ih]
      simp
    · have hp' : p c = false := by revert hp; cases p c <;> simp
      simp only [List.foldl_cons, List.filter_cons, hp', Bool.not_false]
      rw [ih]
      simp [add_assoc]

theorem plainScan_nil (t : ℕ → Node) (w : ℕ → ℚ) (total r cum : ℚ) :
    plainScan t w total r [] cum = none := rfl

theorem plainScan_cons (t : ℕ → Node) (w : ℕ → ℚ) (total r : ℚ) (c : ℕ)
    (rest : List ℕ) (cum : ℚ) :
    plainScan t w total r (c :: rest) cum =
      if r < cum + w c / total then some ((t c).m)
      else plainScan t w total r rest (cum + w c / total) := rfl

theorem topScan_eq_plain (ops : FloatOps) (t : ℕ → Node)
    (best_q away temperature sum r : ℚ) :
    ∀ (l : List ℕ) (cum : ℚ),
      topScanPick ops t best_q away temperature sum r l cum =
        plainScan t (powCW ops t temperature) sum r
          (l.filter (fun c => !topSkip t best_q away c)) cum := by
  intro l
  induction l with
  | nil => intro cum; rfl
  | cons c rest ih =>
    intro cum
    by_cases hp : topSkip t best_q away c = true
    · simp only [topScanPick, List.filter_cons, hp, Bool.not_true, if_pos rfl,
        if_true]
      exact ih cum
    · have hp' : topSkip t best_q away c = false := by
        revert hp; cases topSkip t best_q away c <;> simp
      simp only [topScanPick, List.filter_cons, hp', Bool.not_false]
      rw [if_neg (by simp [hp'])]
      rw [if_pos trivial]
      by_cases hr : r < cum + powCW ops t temperature c / sum
      · rw [plainScan_cons, if_pos hr, if_pos hr]
      · rw [plainScan_cons, if_neg hr, if_neg hr]
        exact ih _

theorem plainScan_mem (t : ℕ → Node) (w : ℕ → ℚ) (total r : ℚ) :
    ∀ (l : List ℕ) (cum : ℚ) (m : Mv),
      plainScan t w total r l cum = some m → ∃ c ∈ l, m = (t c).m := by
  intro l
  induction l with
  | nil => intro cum m h; exact absurd h (by simp [plainScan_nil])
  | cons c rest ih =>
    intro cum m h
    rw [plainScan_cons] at h
    by_cases hr : r < cum + w c / total
    · rw [if_pos hr] at h
      exact ⟨c, by simp, (Option.some_injective _ h).symm⟩
    · rw [if_neg hr] at h
      obtain ⟨c', hc', hm⟩ := ih _ m h
      exact ⟨c', by simp [hc'], hm⟩

theorem plainScan_complete (t : ℕ → Node) (w : ℕ → ℚ) (total r : ℚ) :
    ∀ (l : List ℕ) (cum : ℚ), cum ≤ r →
      r < cum + (l.map w).sum / total →
      ∃ m, plainScan t w total r l cum = some m := by
  intro l
  induction l with
  | nil =>
    intro cum h1 h2
    simp at h2
    exact absurd h2 (by linarith)
  | cons c rest ih =>
    intro cum h1 h2
    by_cases hr : r < cum + w c / total
    · exact ⟨(t c).m, by rw [plainScan_cons, if_pos hr]⟩
    · have h1' : cum + w c / total ≤ r := le_of_not_lt hr
      have h2' : r < (cum + w c / total) + (rest.map w).sum / total := by
        simp only [List.map_cons, List.sum_cons] at h2
        rw [add_div] at h2
        linarith
      obtain ⟨m, hm⟩ := ih (cum + w c / total) h1' h2'
      exact ⟨m, by rw [plainScan_cons, if_neg hr]; exact hm⟩

/-- C9 amended: `softmax_sample_among_top_moves` restricts the support to
the children whose `q = 1 - w/n` — computed WITHOUT virtual loss and
without a zero-visit guard, unlike §4.2's Q — is at least `best_q - away`
(with `best_q = 1 - w/n` of the max-visit child), and, whenever the support
has positive total weight and `r ∈ [0, 1)`, returns the move of a support
member picked with probability proportional to `n^(1/temperature)` (the
cumulative-threshold scheme); when the threshold never fires the first
child overall is returned. -/
theorem c9_softmax_among_top_amended (ops : FloatOps) (t : ℕ → Node)
    (node : ℕ) (away temperature r : ℚ) :
    softmax_sample_among_top_moves ops t node away temperature r =
      specAmendedTopSample ops t node away temperature r ∧
    (0 ≤ r → r < 1 → 0 < topTotal ops t node away temperature →
      ∃ c ∈ topSupport t node away,
        softmax_sample_among_top_moves ops t node away temperature r =
          (t c).m) := by
  have heq : softmax_sample_among_top_moves ops t node away temperature r =
      specAmendedTopSample ops t node away temperature r := by
    show (match topScanPick ops t (topBestQ t node) away temperature
        (((t node).children).foldl
          (fun a c => if topSkip t (topBestQ t node) away c then a
            else a + powCW ops t temperature c) 0) r
        ((t node).children) 0 with
      | some m => m
      | none => (t (((t node).children).headD 0)).m) =
      specAmendedTopSample ops t node away temperature r
    rw [skipFold_eq, zero_add, topScan_eq_plain]
    rfl
  refine ⟨heq, ?_⟩
  intro hr0 hr1 htot
  have hne : topTotal ops t node away temperature ≠ 0 := ne_of_gt htot
  obtain ⟨m, hm⟩ := plainScan_complete t (powCW ops t temperature)
    (topTotal ops t node away temperature) r (topSupport t node away) 0 hr0
    (by
      rw [zero_add]
      unfold topTotal
      rw [div_self (by exact_mod_cast hne)]
      exact hr1)
  obtain ⟨c, hc, hmc⟩ := plainScan_mem t (powCW ops t temperature)
    (topTotal ops t node away temperature) r (topSupport t node away) 0 m hm
  refine ⟨c, hc, ?_⟩
  rw [heq]
  unfold specAmendedTopSample
  rw [hm, hmc]

/-- Q exactly as §4.2 of the specification defines it (with virtual loss and
the zero-guard), used to state the original claim's support. -/
def q42 (nd : Node) : ℚ :=
  if nd.n + nd.virtual_loss = 0 then 0
  else 1 - (nd.w + (nd.virtual_loss : ℚ)) / (((nd.n + nd.virtual_loss : ℕ)) : ℚ)

/-- The support the original claim prescribes: children whose §4.2 Q is at
least `best_Q - away`. -/
def claimSupport (t : ℕ → Node) (node : ℕ) (away : ℚ) : List ℕ :=
  ((t node).children).filter
    (fun c => decide (q42 (t c) ≥ q42 (t (select_n_max_child t node)) - away))

/-- Root 1 with children 2 (`n = 10`, `w = 0`, quiesced) and 3 (`n = 5`,
`w = 0`, but `virtual_loss = 5` from in-flight playouts): the source's
sampling q ignores virtual loss, §4.2's Q does not. -/
def c9Tree : ℕ → Node :=
  fun j =>
    if j = 1 then
      { n := 15, v := 0, p := 1, w := 7, m := NULL_MOVE, parent := 0,
        children := [2, 3], is_terminal := false, virtual_loss := 0,
        is_used := true }
    else if j = 2 then
      { n := 10, v := 0, p := 1 / 2, w := 0, m := { policy_index := 21 },
        parent := 1, children := [], is_terminal := false,
        virtual_loss := 0, is_used := true }
    else if j = 3 then
      { n := 5, v := 0, p := 1 / 2, w := 0, m := { policy_index := 22 },
        parent := 1, children := [], is_terminal := false,
        virtual_loss := 5, is_used := true }
    else Node.new 0 NULL_MOVE 0 false

theorem c9_softmax_among_top_amended_witness :
    ∃ c ∈ topSupport c9Tree 1 (3 / 10),
      softmax_sample_among_top_moves idOps c9Tree 1 (3 / 10) 1 (9 / 10) =
        (c9Tree c).m :=
  (c9_softmax_among_top_amended idOps c9Tree 1 (3 / 10) 1 (9 / 10)).2
    (by norm_num) (by norm_num)
    (by norm_num [topTotal, topSupport, topSkip, topBestQ, powCW, c9Tree,
      select_n_max_child, selectNMaxChildAux, idOps])

/-- C9 counterexample: with `away = 0.3`, `T = 1` and draw `r = 0.9`, the
source sampler returns the move of child 3 — whose §4.2 Q is
`1 − 5/10 = ½ < best_Q − away = 0.7` because of its pending virtual loss —
so the sampled child lies OUTSIDE the claim's §4.2-based support, which is
exactly `[2]`. -/
theorem c9_softmax_among_top_counterexample :
    softmax_sample_among_top_moves idOps c9Tree 1 (3 / 10) 1 (9 / 10) =
      (c9Tree 3).m ∧
    claimSupport c9Tree 1 (3 / 10) = [2] ∧ (c9Tree 3).m ≠ (c9Tree 2).m := by
  refine ⟨?_, ?_, ?_⟩
  · norm_num [softmax_sample_among_top_moves, topScanPick, topSkip, powCW,
      c9Tree, select_n_max_child, selectNMaxChildAux, idOps]
  · norm_num [claimSupport, q42, c9Tree, select_n_max_child,
      selectNMaxChildAux]
  · norm_num [c9Tree]

/-! ## Replay reservoir (C7, C8, C10) -/

/-- The `Record` collaborator (src/record.rs is outside the verified
sources), modelled from the spec §3/§6: SFEN move list, per-ply MCTS
results, winner, and learning-target ply indices. -/
structure Rec where
  sfen_kif : List String
  mcts_result : List (ℕ × ℚ × List (String × ℕ))
  winner : ℕ
  learning_target_plys : List ℕ
deriving DecidableEq

/-- Structure `Reservoir` (src/reservoir.rs lines 16-23): the two parallel deques
(lists, head = oldest), the contents of the append-only log file, and the
capacity.  The `write_count`/`read_count` busy-wait counters are a
concurrency mechanism with no sequential effect and are not modelled. -/
structure Reservoir where
  records : List Rec
  learning_targets : List (List ℕ)
  logfile : String
  max_size : ℕ
deriving DecidableEq

/-- The eviction step at the top of `Reservoir::push_with_option`
(src/reservoir.rs lines 40-43): pop the oldest record and its
learning-target list when `records.len() == max_size`. -/
def popIfFull (st : Reservoir) : Reservoir :=
  if st.records.length = st.max_size then
    { st with records := st.records.tail,
              learning_targets := st.learning_targets.tail }
  else st

/-- Source `Reservoir::push_with_option` (src/reservoir.rs lines 39-55).
`Record::from_json` is modelled from the spec as the abstract
`parse : String → Option Rec` (src/record.rs is outside the verified
sources; per §7 it fails the call on invalid JSON — in the source an
`unwrap` panic).  `Sum.inl s` means the call aborted at the `from_json`
panic with the state already advanced to `s`; note the source evicts
BEFORE parsing. -/
def pushWithOption (parse : String → Option Rec) (st : Reservoir)
    (record_json : String) (log : Bool) : Reservoir ⊕ Reservoir :=
  let st1 := popIfFull st
  match parse record_json with
  | none => Sum.inl st1
  | some record =>
    let st2 := { st1 with
      records := st1.records ++ [record],
      learning_targets := st1.learning_targets ++ [record.learning_target_plys] }
    Sum.inr (if log then { st2 with logfile := st2.logfile ++ record_json ++ "\n" } else st2)

/-- Source `Reservoir::push` (src/reservoir.rs lines 57-72): the busy-wait on the
reader/writer counters has no sequential effect; the call is
`push_with_option(record_json, true)`. -/
def Reservoir.push (parse : String → Option Rec) (st : Reservoir)
    (record_json : String) : Reservoir ⊕ Reservoir :=
  pushWithOption parse st record_json true

/-- Source `Reservoir::load` (src/reservoir.rs lines 74-81): the log is read line
by line, I/O-unreadable lines are dropped by `filter_map(|x| x.ok())`
(modelled as `Option String` entries), and each remaining line is pushed
without re-logging; a `from_json` panic aborts the whole call with the
state reached so far. -/
def loadAux (parse : String → Option Rec) :
    Reservoir → List String → Reservoir ⊕ Reservoir
  | st, [] => Sum.inr st
  | st, l :: rest =>
    match pushWithOption parse st l false with
    | Sum.inl s => Sum.inl s
    | Sum.inr s => loadAux parse s rest

/-- Source `Reservoir::load` entry point; `rawLines` holds `none` for lines the
`BufReader` could not read. -/
def Reservoir.load (parse : String → Option Rec) (st : Reservoir)
    (rawLines : List (Option String)) : Reservoir ⊕ Reservoir :=
  loadAux parse st (rawLines.filterMap id)

/-- A sequence of `Reservoir::push` calls, aborting at the first panic. -/
def pushAll (parse : String → Option Rec) :
    Reservoir → List String → Reservoir ⊕ Reservoir
  | st, [] => Sum.inr st
  | st, l :: rest =>
    match Reservoir.push parse st l with
    | Sum.inl s => Sum.inl s
    | Sum.inr s => pushAll parse s rest

/-- C7 amended: `push`/`load` on invalid JSON fail the call, enqueue
nothing and append nothing to the log; when the reservoir is BELOW capacity
the state is unchanged, but a failing push at capacity has already evicted
the oldest record and its learning-target list (the source pops before
parsing), so the state is NOT unchanged there; `load` skips I/O-unreadable
lines entirely and aborts at the first invalid-JSON line without partially
ingesting it. -/
theorem c7_push_invalid_json (parse : String → Option Rec) (st : Reservoir)
    (json : String) (log : Bool) (h : parse json = none) :
    pushWithOption parse st json log = Sum.inl (popIfFull st) ∧
    (popIfFull st).logfile = st.logfile ∧
    (st.records.length ≠ st.max_size → popIfFull st = st) ∧
    (st.records.length = st.max_size →
      (popIfFull st).records = st.records.tail ∧
      (popIfFull st).learning_targets = st.learning_targets.tail) ∧
    (∀ lines, loadAux parse st (json :: lines) = Sum.inl (popIfFull st)) := by
  refine ⟨?_, ?_, ?_, ?_, ?_⟩
  · unfold pushWithOption
    rw [h]
  · unfold popIfFull
    split_ifs <;> rfl
  · intro hne
    unfold popIfFull
    rw [if_neg hne]
  · intro heq
    unfold popIfFull
    rw [if_pos heq]
    exact ⟨rfl, rfl⟩
  · intro lines
    show (match pushWithOption parse st json false with
      | Sum.inl s => Sum.inl s
      | Sum.inr s => loadAux parse s lines) = Sum.inl (popIfFull st)
    have h1 : pushWithOption parse st json false = Sum.inl (popIfFull st) := by
      unfold pushWithOption
      rw [h]
    rw [h1]

/-- A minimal record for the reservoir witnesses/counterexamples. -/
def recA : Rec :=
  { sfen_kif := [], mcts_result := [], winner := 0,
    learning_target_plys := [0] }

/-- Model of `Record::from_json` for the concrete reservoir inputs: only the
string "ok" is valid JSON. -/
def cparse : String → Option Rec := fun s => if s = "ok" then some recA else none

theorem c7_push_invalid_json_witness :
    pushWithOption cparse { records := [recA], learning_targets := [[0]], logfile := "", max_size := 1 } "bad" true = Sum.inl (popIfFull { records := [recA], learning_targets := [[0]], logfile := "", max_size := 1 }) :=
  (c7_push_invalid_json cparse { records := [recA], learning_targets := [[0]], logfile := "", max_size := 1 } "bad" true (by decide)).1

/-- C7 counterexample: a push of invalid JSON into a reservoir AT capacity
(one record, `max_size = 1`) fails the call but leaves the reservoir EMPTY
— the oldest record and its learning-target list were evicted before
parsing — refuting "the reservoir state is unchanged". -/
theorem c7_push_invalid_json_counterexample :
    pushWithOption cparse { records := [recA], learning_targets := [[0]], logfile := "", max_size := 1 } "bad" true = Sum.inl ({ records := [], learning_targets := [], logfile := "", max_size := 1 }) ∧
    ({ records := [], learning_targets := [], logfile := "", max_size := 1 } : Reservoir) ≠ { records := [recA], learning_targets := [[0]], logfile := "", max_size := 1 } := by
  constructor
  · decide
  · decide

/-- C8 counterexample: with `max_size = 0` the eviction test
`records.len() == max_size` never fires again once the deque is non-empty,
so after two valid pushes (more than `max_size`) the reservoir holds BOTH
records instead of "exactly the last `max_size` (= 0) records". -/
theorem c8_fifo_zero_capacity_counterexample :
    pushAll (fun _ => some recA) { records := [], learning_targets := [], logfile := "", max_size := 0 } ["a", "b"] = Sum.inr ({ records := [recA, recA], learning_targets := [[0], [0]], logfile := "a\nb\n", max_size := 0 }) ∧
    ([recA, recA] : List Rec).length ≠ 0 := by
  constructor
  · decide
  · decide

theorem tail_map_comm (f : Rec → List ℕ) :
    ∀ (l : List Rec), (l.map f).tail = l.tail.map f := by
  intro l
  cases l <;> rfl

theorem filterMap_all_some (parse : String → Option Rec) :
    ∀ (seq : List String), (∀ s ∈ seq, (parse s).isSome) →
      (seq.filterMap parse).length = seq.length := by
  intro seq
  induction seq with
  | nil => intro _; rfl
  | cons s rest ih =>
    intro h
    have hs := h s (by simp)
    obtain ⟨r, hr⟩ := Option.isSome_iff_exists.mp hs
    simp only [List.filterMap_cons, hr]
    simp [ih (fun x hx => h x (by simp [hx]))]

theorem pushAll_inv (parse : String → Option Rec) (m : ℕ) (hm : 1 ≤ m) :
    ∀ (seq : List String) (st : Reservoir), st.max_size = m →
      st.records.length ≤ m →
      st.learning_targets =
        st.records.map (fun rec => rec.learning_target_plys) →
      (∀ s ∈ seq, (parse s).isSome) →
      ∃ stF, pushAll parse st seq = Sum.inr stF ∧ stF.max_size = m ∧
        stF.records = (st.records ++ seq.filterMap parse).drop
          ((st.records ++ seq.filterMap parse).length - m) ∧
        stF.learning_targets =
          stF.records.map (fun rec => rec.learning_target_plys) := by
  intro seq
  induction seq with
  | nil =>
    intro st hmax hlen htgt _
    refine ⟨st, rfl, hmax, ?_, htgt⟩
    have h0 : (st.records ++ ([] : List String).filterMap parse).length - m =
        0 := by
      simp
      omega
    rw [h0]
    simp
  | cons s rest ih =>
    intro st hmax hlen htgt hall
    obtain ⟨rec, hrec⟩ := Option.isSome_iff_exists.mp (hall s (by simp))
    have hstep : Reservoir.push parse st s = Sum.inr
        { records := (popIfFull st).records ++ [rec],
          learning_targets := (popIfFull st).learning_targets ++
            [rec.learning_target_plys],
          logfile := (popIfFull st).logfile ++ s ++ "\n",
          max_size := (popIfFull st).max_size } := by
      unfold Reservoir.push pushWithOption
      rw [hrec]
      rfl
    have hpop_max : (popIfFull st).max_size = st.max_size := by
      unfold popIfFull
      split_ifs <;> rfl
    by_cases hfull : st.records.length = st.max_size
    · -- at capacity: evict then enqueue
      have hpop : (popIfFull st).records = st.records.tail ∧
          (popIfFull st).learning_targets = st.learning_targets.tail := by
        unfold popIfFull
        rw [if_pos hfull]
        exact ⟨rfl, rfl⟩
      have hne : st.records ≠ [] := by
        intro h0
        rw [h0] at hfull
        simp at hfull
        omega
      obtain ⟨r0, rrest, hr0⟩ := List.exists_cons_of_ne_nil hne
      obtain ⟨stF, hPA, hFmax, hFrec, hFtgt⟩ := ih
        { records := (popIfFull st).records ++ [rec],
          learning_targets := (popIfFull st).learning_targets ++
            [rec.learning_target_plys],
          logfile := (popIfFull st).logfile ++ s ++ "\n",
          max_size := (popIfFull st).max_size }
        (by simpa [hpop_max] using hmax)
        (by
          have hrlen : st.records.length = rrest.length + 1 := by
            rw [hr0]
            simp
          simp only [hpop.1, hr0, hpop_max]
          simp
          omega)
        (by
          simp only [hpop.1, hpop.2, htgt]
          rw [tail_map_comm]
          simp)
        (fun x hx => hall x (by simp [hx]))
      refine ⟨stF, ?_, hFmax, ?_, hFtgt⟩
      · show (match Reservoir.push parse st s with
          | Sum.inl s' => Sum.inl s'
          | Sum.inr s' => pushAll parse s' rest) = Sum.inr stF
        rw [hstep]
        exact hPA
      · rw [hFrec]
        simp only [hpop.1, hr0, List.filterMap_cons, hrec]
        have hlen1 : ((r0 :: rrest).tail ++ [rec] ++
            rest.filterMap parse).length =
            ((r0 :: rrest) ++ rec :: rest.filterMap parse).length - 1 := by
          simp
        have hsplit : ((r0 :: rrest) ++ rec :: rest.filterMap parse) =
            r0 :: (rrest ++ [rec] ++ rest.filterMap parse) := by
          simp
        rw [hsplit]
        have htail : ((r0 :: rrest).tail ++ [rec] ++ rest.filterMap parse) =
            rrest ++ [rec] ++ rest.filterMap parse := by
          simp
        rw [htail]
        have hlen2 : (r0 :: (rrest ++ [rec] ++ rest.filterMap parse)).length
            - m = (rrest ++ [rec] ++ rest.filterMap parse).length - m + 1 := by
          simp only [List.length_cons, List.length_append]
          have hrr : rrest.length + 1 = m := by
            have := hfull
            rw [hr0] at this
            simp at this
            omega
          simp
          omega
        rw [hlen2, List.drop_succ_cons]
    · -- below capacity: plain enqueue
      have hpop : popIfFull st = st := by
        unfold popIfFull
        rw [if_neg hfull]
      obtain ⟨stF, hPA, hFmax, hFrec, hFtgt⟩ := ih
        { records := (popIfFull st).records ++ [rec],
          learning_targets := (popIfFull st).learning_targets ++
            [rec.learning_target_plys],
          logfile := (popIfFull st).logfile ++ s ++ "\n",
          max_size := (popIfFull st).max_size }
        (by simpa [hpop_max] using hmax)
        (by
          rw [hpop]
          simp only [List.length_append]
          have : st.records.length < m := by
            rw [hmax] at hfull
            omega
          simp
          omega)
        (by
          rw [hpop, htgt]
          simp)
        (fun x hx => hall x (by simp [hx]))
      refine ⟨stF, ?_, hFmax, ?_, hFtgt⟩
      · show (match Reservoir.push parse st s with
          | Sum.inl s' => Sum.inl s'
          | Sum.inr s' => pushAll parse s' rest) = Sum.inr stF
        rw [hstep]
        exact hPA
      · rw [hFrec, hpop]
        simp only [List.filterMap_cons, hrec]
        congr 1
        · simp
        · simp

/-- C8 amended: for `max_size ≥ 1` the claim holds — a push at capacity
evicts the oldest record and its learning-target list before enqueueing the
parsed record and appends the original JSON line plus a newline to the log;
after more than `max_size` valid pushes into a fresh reservoir, exactly the
last `max_size` records remain, in push order, with the learning-target
deque aligned.  (`max_size = 0` is excluded: the source's `len == max_size`
test never fires once the deque is non-empty, so a zero-capacity reservoir
grows without bound — see the counterexample.) -/
theorem c8_fifo_eviction_amended (parse : String → Option Rec) (m : ℕ)
    (hm : 1 ≤ m) :
    (∀ (st : Reservoir) (json : String) (rec : Rec), parse json = some rec →
      st.records.length = st.max_size →
      Reservoir.push parse st json =
        Sum.inr ({ records := st.records.tail ++ [rec], learning_targets := st.learning_targets.tail ++ [rec.learning_target_plys], logfile := st.logfile ++ json ++ "\n", max_size := st.max_size })) ∧
    (∀ (seq : List String), (∀ s ∈ seq, (parse s).isSome) →
      m < seq.length →
      ∃ stF, pushAll parse
          { records := [], learning_targets := [], logfile := "", max_size := m }
          seq = Sum.inr stF ∧
        stF.records = (seq.filterMap parse).drop (seq.length - m) ∧
        stF.learning_targets =
          stF.records.map (fun rec => rec.learning_target_plys) ∧
        stF.records.length = m) := by
  constructor
  · intro st json rec hrec hfull
    unfold Reservoir.push pushWithOption popIfFull
    rw [hrec, if_pos hfull]
    rfl
  · intro seq hall hlen
    obtain ⟨stF, hPA, hFmax, hFrec, hFtgt⟩ := pushAll_inv parse m hm seq
      { records := [], learning_targets := [], logfile := "", max_size := m }
      rfl (by simp) (by simp) hall
    have hfm : (seq.filterMap parse).length = seq.length :=
      filterMap_all_some parse seq hall
    have hrec : stF.records = (seq.filterMap parse).drop (seq.length - m) := by
      rw [hFrec]
      simp [hfm]
    refine ⟨stF, hPA, hrec, hFtgt, ?_⟩
    rw [hrec]
    simp [hfm]
    omega

theorem c8_fifo_eviction_amended_witness :
    ∃ stF, pushAll (fun _ => some recA)
        { records := [], learning_targets := [], logfile := "", max_size := 1 }
        ["a", "b"] = Sum.inr stF ∧
      stF.records = ((["a", "b"] : List String).filterMap
        (fun _ => some recA)).drop ((["a", "b"] : List String).length - 1) ∧
      stF.learning_targets =
        stF.records.map (fun rec => rec.learning_target_plys) ∧
      stF.records.length = 1 :=
  (c8_fifo_eviction_amended (fun _ => some recA) 1 (by omega)).2 ["a", "b"]
    (by intro s _; rfl) (by simp)

/-- The prefix-sum construction of `Reservoir::sample`
(src/reservoir.rs lines 100-104): `for i in 0..max_size { c[i+1] = c[i] +
learning_targets[i].len() }`.  The deque read `learning_targets[i]` is
modelled with `List.get?`; `none` marks the out-of-bounds access that
panics in the source. -/
def buildCumAux (targets : List (List ℕ)) : ℕ → ℕ → ℕ → Option (List ℕ)
  | _, _, 0 => some []
  | i, acc, k + 1 =>
    match targets.get? i with
    | none => none
    | some l =>
      (buildCumAux targets (i + 1) (acc + l.length) k).map
        ((acc + l.length) :: ·)

/-- Vector `cumulative_plys`: the length-`max_size + 1` prefix-sum vector (leading
0), or `none` when some read in `[0, max_size)` is out of bounds. -/
def buildCumulative (targets : List (List ℕ)) (max_size : ℕ) :
    Option (List ℕ) :=
  (buildCumAux targets 0 0 max_size).map (0 :: ·)

theorem buildCumAux_succ (targets : List (List ℕ)) (i acc k : ℕ) :
    buildCumAux targets i acc (k + 1) =
      match targets.get? i with
      | none => none
      | some l =>
        (buildCumAux targets (i + 1) (acc + l.length) k).map
          ((acc + l.length) :: ·) := rfl

theorem buildCumAux_isSome (targets : List (List ℕ)) :
    ∀ (k i acc : ℕ),
      ((buildCumAux targets i acc k).isSome ↔
        (k = 0 ∨ i + k ≤ targets.length)) := by
  intro k
  induction k with
  | zero =>
    intro i acc
    simp [buildCumAux]
  | succ k ih =>
    intro i acc
    cases hget : targets.get? i with
    | none =>
      have hlen : targets.length ≤ i := List.get?_eq_none.mp hget
      simp only [buildCumAux, hget]
      simp
      omega
    | some l =>
      have hlen : i < targets.length := by
        have := List.get?_eq_some.mp hget
        exact this.1
      simp only [buildCumAux, hget, Option.isSome_map']
      rw [ih (i + 1) (acc + l.length)]
      constructor
      · intro h
        omega
      · intro h
        omega

theorem buildCumAux_length (targets : List (List ℕ)) :
    ∀ (k i acc : ℕ) (l : List ℕ),
      buildCumAux targets i acc k = some l → l.length = k := by
  intro k
  induction k with
  | zero =>
    intro i acc l h
    simp [buildCumAux] at h
    simp [← h]
  | succ k ih =>
    intro i acc l h
    cases hget : targets.get? i with
    | none =>
      rw [buildCumAux_succ, hget] at h
      exact absurd h (by simp)
    | some v =>
      rw [buildCumAux_succ, hget] at h
      obtain ⟨l', hl', hcons⟩ := Option.map_eq_some'.mp h
      rw [← hcons]
      simp [ih _ _ l' hl']

/-- C10: the prefix-sum pass of `Reservoir::sample` reads
`learning_targets[i]` for EVERY `i ∈ [0, max_size)` regardless of how many
records are stored, so it stays in bounds iff `max_size ≤` the stored
count; since the deque never holds more than `max_size` entries, the sample
call performs no out-of-bounds deque access only when the reservoir holds
exactly `max_size` records, and then the vector has length
`max_size + 1`. -/
theorem c10_sample_reads_all_indices (st : Reservoir) :
    ((buildCumulative st.learning_targets st.max_size).isSome ↔
      st.max_size ≤ st.learning_targets.length) ∧
    (st.learning_targets.length < st.max_size →
      buildCumulative st.learning_targets st.max_size = none) ∧
    (st.learning_targets.length ≤ st.max_size →
      ((buildCumulative st.learning_targets st.max_size).isSome ↔
        st.learning_targets.length = st.max_size)) ∧
    (st.learning_targets.length = st.max_size →
      ∃ c, buildCumulative st.learning_targets st.max_size = some c ∧
        c.length = st.max_size + 1) := by
  have hsome : (buildCumulative st.learning_targets st.max_size).isSome ↔
      st.max_size ≤ st.learning_targets.length := by
    unfold buildCumulative
    rw [Option.isSome_map']
    rw [buildCumAux_isSome st.learning_targets st.max_size 0 0]
    constructor
    · intro h
      omega
    · intro h
      omega
  refine ⟨hsome, ?_, ?_, ?_⟩
  · intro hlt
    by_cases h : (buildCumulative st.learning_targets st.max_size).isSome
    · have := hsome.mp h
      omega
    · exact Option.not_isSome_iff_eq_none.mp h
  · intro hle
    rw [hsome]
    constructor
    · intro h
      omega
    · intro h
      omega
  · intro heq
    have h1 : (buildCumulative st.learning_targets st.max_size).isSome := by
      rw [hsome]
      omega
    obtain ⟨c, hc⟩ := Option.isSome_iff_exists.mp h1
    refine ⟨c, hc, ?_⟩
    unfold buildCumulative at hc
    obtain ⟨l', hl', hcons⟩ := Option.map_eq_some'.mp hc
    rw [← hcons]
    simp [buildCumAux_length st.learning_targets st.max_size 0 0 l' hl']
